import Mathlib

/-!
Verification of the lens-relay-server indexing subsystem
(`crates/y-sweet-core`: `link_indexer.rs`, `link_parser.rs`, `doc_resolver.rs`)
against its natural-language specification.

Shallow embedding conventions:
* Rust `String`/`&str` values are modelled as `Str := List Char`; byte-level
  operations (`parse_doc_id`) work over the UTF-8 byte sequence of the chars.
* Y.js maps (`filemeta_v0`, `backlinks_v0`, `DashMap`) are modelled as
  association lists whose list order stands for the (unspecified) iteration
  order of the real map.  `filemeta_v0` entry values are modelled as the
  normalized `{id}` record (just the uuid string), matching the store contract
  of spec section 6 (both wire encodings carry an `id` field, normalized at
  the boundary by `extract_id_from_filemeta_entry`).
* Stateful methods become explicit state-passing functions.
* Rust `to_lowercase` is modelled by ASCII case folding (`lowerChar`); all
  data handled by the repository's code and tests is ASCII.
-/

abbrev Str := List Char

/-- Association-list lookup (first matching key wins), the model of
`HashMap::get` / `DashMap::get` / yrs `Map::get`. -/
def alookup {β : Type} (k : Str) : List (Str × β) → Option β
  | [] => none
  | (k', v) :: t => if k' = k then some v else alookup k t

/-- Association-list insert-or-overwrite (replaces the first binding in
place, appends when absent), the model of `HashMap::insert` and of yrs
`Map::insert`. -/
def ainsert {β : Type} (k : Str) (v : β) : List (Str × β) → List (Str × β)
  | [] => [(k, v)]
  | (k', v') :: t => if k' = k then (k, v) :: t else (k', v') :: ainsert k v t

/-- Association-list removal of the (first) binding of a key, the model of
`HashMap::remove` / yrs `Map::remove`. -/
def aerase {β : Type} (k : Str) : List (Str × β) → List (Str × β)
  | [] => []
  | (k', v') :: t => if k' = k then t else (k', v') :: aerase k t

def akeys {β : Type} (l : List (Str × β)) : List Str := l.map (·.1)

/-- Well-formedness of a map model: each key is bound at most once. -/
def NodupKeys {β : Type} (l : List (Str × β)) : Prop := (akeys l).Nodup

theorem akeys_cons {β : Type} (k : Str) (v : β) (t : List (Str × β)) :
    akeys ((k, v) :: t) = k :: akeys t := rfl

theorem nodupKeys_cons {β : Type} {k : Str} {v : β} {t : List (Str × β)} :
    NodupKeys ((k, v) :: t) ↔ k ∉ akeys t ∧ NodupKeys t := by
  unfold NodupKeys
  rw [akeys_cons, List.nodup_cons]

theorem mem_akeys_of_alookup {β : Type} {k : Str} {v : β} {l : List (Str × β)}
    (h : alookup k l = some v) : k ∈ akeys l := by
  induction l with
  | nil => simp [alookup] at h
  | cons hd t ih =>
    obtain ⟨k', v'⟩ := hd
    by_cases h2 : k' = k
    · subst h2
      exact List.mem_cons_self _ _
    · rw [alookup, if_neg h2] at h
      exact List.mem_cons_of_mem _ (ih h)

theorem alookup_eq_none_of_not_mem {β : Type} {k : Str} {l : List (Str × β)}
    (h : k ∉ akeys l) : alookup k l = none := by
  cases hl : alookup k l with
  | none => rfl
  | some v => exact absurd (mem_akeys_of_alookup hl) h

theorem alookup_ainsert_self {β : Type} (k : Str) (v : β) (l : List (Str × β)) :
    alookup k (ainsert k v l) = some v := by
  induction l with
  | nil => simp [ainsert, alookup]
  | cons hd t ih =>
    obtain ⟨k', v'⟩ := hd
    by_cases h : k' = k
    · rw [ainsert, if_pos h, alookup, if_pos rfl]
    · rw [ainsert, if_neg h, alookup, if_neg h]
      exact ih

theorem alookup_ainsert_ne {β : Type} {k k' : Str} (h : k' ≠ k) (v : β)
    (l : List (Str × β)) : alookup k (ainsert k' v l) = alookup k l := by
  induction l with
  | nil => simp [ainsert, alookup, h]
  | cons hd t ih =>
    obtain ⟨k'', v''⟩ := hd
    by_cases h2 : k'' = k'
    · subst h2
      rw [ainsert, if_pos rfl, alookup, if_neg h, alookup, if_neg h]
    · rw [ainsert, if_neg h2]
      by_cases h3 : k'' = k
      · rw [alookup, if_pos h3, alookup, if_pos h3]
      · rw [alookup, if_neg h3, alookup, if_neg h3]
        exact ih

theorem alookup_aerase_ne {β : Type} {k k' : Str} (h : k' ≠ k)
    (l : List (Str × β)) : alookup k (aerase k' l) = alookup k l := by
  induction l with
  | nil => simp [aerase]
  | cons hd t ih =>
    obtain ⟨k'', v''⟩ := hd
    by_cases h2 : k'' = k'
    · subst h2
      rw [aerase, if_pos rfl, alookup, if_neg h]
    · rw [aerase, if_neg h2]
      by_cases h3 : k'' = k
      · rw [alookup, if_pos h3, alookup, if_pos h3]
      · rw [alookup, if_neg h3, alookup, if_neg h3]
        exact ih

theorem alookup_aerase_self {β : Type} {k : Str} {l : List (Str × β)}
    (h : NodupKeys l) : alookup k (aerase k l) = none := by
  induction l with
  | nil => simp [aerase, alookup]
  | cons hd t ih =>
    obtain ⟨k', v'⟩ := hd
    rw [nodupKeys_cons] at h
    by_cases h2 : k' = k
    · rw [aerase, if_pos h2]
      exact alookup_eq_none_of_not_mem (h2 ▸ h.1)
    · rw [aerase, if_neg h2, alookup, if_neg h2]
      exact ih h.2

theorem mem_akeys_aerase {β : Type} {k k' : Str} {l : List (Str × β)}
    (h : k' ∈ akeys (aerase k l)) : k' ∈ akeys l := by
  induction l with
  | nil => simpa [aerase] using h
  | cons hd t ih =>
    obtain ⟨k'', v''⟩ := hd
    by_cases h2 : k'' = k
    · rw [aerase, if_pos h2] at h
      exact List.mem_cons_of_mem _ h
    · rw [aerase, if_neg h2, akeys_cons] at h
      rcases List.mem_cons.mp h with h3 | h3
      · rw [akeys_cons]
        exact List.mem_cons.mpr (Or.inl h3)
      · exact List.mem_cons_of_mem _ (ih h3)

theorem nodupKeys_aerase {β : Type} (k : Str) {l : List (Str × β)}
    (h : NodupKeys l) : NodupKeys (aerase k l) := by
  induction l with
  | nil => simpa [aerase] using h
  | cons hd t ih =>
    obtain ⟨k', v'⟩ := hd
    rw [nodupKeys_cons] at h
    by_cases h2 : k' = k
    · rw [aerase, if_pos h2]
      exact h.2
    · rw [aerase, if_neg h2, nodupKeys_cons]
      exact ⟨fun hmem => h.1 (mem_akeys_aerase hmem), ih h.2⟩

theorem akeys_ainsert {β : Type} (k : Str) (v : β) (l : List (Str × β)) :
    akeys (ainsert k v l) = if k ∈ akeys l then akeys l else akeys l ++ [k] := by
  induction l with
  | nil => simp [ainsert, akeys]
  | cons hd t ih =>
    obtain ⟨k', v'⟩ := hd
    by_cases h : k' = k
    · subst h
      rw [ainsert, if_pos rfl, akeys_cons, akeys_cons,
        if_pos (List.mem_cons_self _ _)]
    · rw [ainsert, if_neg h, akeys_cons, akeys_cons, ih]
      by_cases h2 : k ∈ akeys t
      · rw [if_pos h2, if_pos (List.mem_cons_of_mem _ h2)]
      · have hnotc : k ∉ k' :: akeys t := by
          rw [List.mem_cons]
          push_neg
          exact ⟨fun hk => h hk.symm, h2⟩
        rw [if_neg h2, if_neg hnotc]
        rfl

theorem nodupKeys_ainsert {β : Type} (k : Str) (v : β) {l : List (Str × β)}
    (h : NodupKeys l) : NodupKeys (ainsert k v l) := by
  unfold NodupKeys
  rw [akeys_ainsert]
  by_cases h2 : k ∈ akeys l
  · simpa [h2] using h
  · simp only [h2, if_false]
    rw [List.nodup_append]
    refine ⟨h, List.nodup_singleton k, fun a ha hb => ?_⟩
    rw [List.mem_singleton.mp hb] at ha
    exact h2 ha

theorem alookup_eq_some_of_mem {β : Type} {k : Str} {v : β} {l : List (Str × β)}
    (hnd : NodupKeys l) (h : (k, v) ∈ l) : alookup k l = some v := by
  induction l with
  | nil => simp at h
  | cons hd t ih =>
    obtain ⟨k', v'⟩ := hd
    rw [nodupKeys_cons] at hnd
    rcases List.mem_cons.mp h with h2 | h2
    · rw [Prod.mk.injEq] at h2
      rw [alookup, if_pos h2.1.symm, h2.2]
    · have hk : k' ≠ k := by
        rintro rfl
        exact hnd.1 (List.mem_map_of_mem (·.1) h2)
      rw [alookup, if_neg hk]
      exact ih hnd.2 h2

theorem mem_of_alookup_eq_some {β : Type} {k : Str} {v : β} {l : List (Str × β)}
    (h : alookup k l = some v) : (k, v) ∈ l := by
  induction l with
  | nil => simp [alookup] at h
  | cons hd t ih =>
    obtain ⟨k', v'⟩ := hd
    by_cases h2 : k' = k
    · subst h2
      rw [alookup, if_pos rfl, Option.some.injEq] at h
      subst h
      simp
    · rw [alookup, if_neg h2] at h
      exact List.mem_cons_of_mem _ (ih h)
-- ---------------------------------------------------------------------------
-- String helpers used by the Rust source (modelled on `Str`)
-- ---------------------------------------------------------------------------

/-- Model of Rust `str::strip_prefix(c)` for a single char pattern. -/
def stripPrefixChar (c : Char) : Str → Option Str
  | [] => none
  | x :: xs => if x = c then some xs else none

/-- Model of Rust `str::strip_suffix(suf)`. -/
def stripSuffix (suf s : Str) : Option Str :=
  if s.length < suf.length then none
  else if s.drop (s.length - suf.length) = suf then
    some (s.take (s.length - suf.length))
  else none

/-- Split a string at every occurrence of `c` (model of `str::split`).
Always returns at least one (possibly empty) piece. -/
def splitOnChar (c : Char) : Str → List Str
  | [] => [[]]
  | x :: xs =>
    let r := splitOnChar c xs
    if x = c then [] :: r
    else
      match r with
      | h :: t => (x :: h) :: t
      | [] => [[x]]

/-- Model of `s.rsplit(c).next().unwrap()`: the final `c`-separated segment. -/
def lastSegment (c : Char) (s : Str) : Str := (splitOnChar c s).getLastD []

/-- ASCII case folding; model of Rust `str::to_lowercase` on the ASCII data
this repository handles (Rust's version also folds non-ASCII letters). -/
def lowerChar (c : Char) : Char :=
  if 'A' ≤ c ∧ c ≤ 'Z' then Char.ofNat (c.toNat + 32) else c

def lowerStr (s : Str) : Str := s.map lowerChar

/-- Lexicographic byte order on strings (Rust `String: Ord`); on UTF-8 data,
codepoint order and byte order agree. -/
def strLe : Str → Str → Bool
  | [], _ => true
  | _ :: _, [] => false
  | a :: as, b :: bs =>
    if a.toNat < b.toNat then true
    else if a.toNat = b.toNat then strLe as bs
    else false

def insertSortedStr (x : Str) : List Str → List Str
  | [] => [x]
  | y :: t => if strLe x y then x :: y :: t else y :: insertSortedStr x t

/-- Insertion sort, model of `Vec::sort` on `Vec<String>` (duplicate-free
inputs here, so stability is irrelevant). -/
def sortStrs (l : List Str) : List Str := l.foldr insertSortedStr []

-- ---------------------------------------------------------------------------
-- UTF-8 byte accounting (used by parse_doc_id and by wikilink byte offsets)
-- ---------------------------------------------------------------------------

/-- UTF-8 encoded size in bytes of one character. -/
def csize (c : Char) : Nat :=
  if c.toNat < 128 then 1
  else if c.toNat < 2048 then 2
  else if c.toNat < 65536 then 3
  else 4

/-- UTF-8 encoding of one character as its list of bytes. -/
def encodeChar (c : Char) : List Nat :=
  let n := c.toNat
  if n < 128 then [n]
  else if n < 2048 then [192 + n / 64, 128 + n % 64]
  else if n < 65536 then [224 + n / 4096, 128 + n / 64 % 64, 128 + n % 64]
  else [240 + n / 262144, 128 + n / 4096 % 64, 128 + n / 64 % 64, 128 + n % 64]

/-- Total UTF-8 byte length of a string (Rust `str::len`). -/
def bytesLen (s : Str) : Nat := (s.map csize).sum

/-- The UTF-8 byte sequence of a string (Rust `str::as_bytes`). -/
def utf8Bytes (s : Str) : List Nat := (s.map encodeChar).flatten

/-- First `n` bytes of a string as characters; a character straddling the
boundary is excluded (total version of Rust slicing `&s[..n]`). -/
def takeBytes (n : Nat) : Str → Str
  | [] => []
  | c :: cs => if csize c ≤ n then c :: takeBytes (n - csize c) cs else []

/-- All but the first `n` bytes of a string as characters; a character
straddling the boundary is kept whole (total version of `&s[n..]`). -/
def dropBytes (n : Nat) : Str → Str
  | [] => []
  | c :: cs => if csize c ≤ n then dropBytes (n - csize c) cs else c :: cs

-- ---------------------------------------------------------------------------
-- WikilinkParser
--
-- `extract_wikilinks` in `link_parser.rs` (lines 61-67) is present but is an
-- unimplemented stub (`// TODO: Implement`, returning `vec![]` for every
-- input, contradicting the module's own unit tests); it is embedded below
-- exactly as it stands.  `compute_wikilink_rename_edits` is imported by
-- `link_indexer.rs` but absent from the sources, so that one is modelled
-- from the spec.  The scanner and `extract_wikilinks_spec` capture the
-- spec's description of parsing, for comparison against the stub.
-- ---------------------------------------------------------------------------

/-- A wikilink occurrence: UTF-8 byte offset of its `[[` opener and the raw
text between `[[` and `]]`. -/
structure WikiToken where
  offset : Nat
  inner : Str
deriving DecidableEq, Repr

/-- The `Name` part of a wikilink body: everything before the first `#`
(anchor) or `|` (alias) delimiter. -/
def linkName (inner : Str) : Str :=
  inner.takeWhile (fun c => ¬(c = '#' ∨ c = '|'))

/-- Does `p` lead the string `s`? -/
def leadsWith : Str → Str → Bool
  | [], _ => true
  | _ :: _, [] => false
  | p :: ps, c :: cs => p == c && leadsWith ps cs

/-- Index (in characters) of the first occurrence of `pat` as a contiguous
substring, if any. -/
def findSub? (pat : Str) : Str → Option Nat
  | [] => if leadsWith pat [] then some 0 else none
  | c :: cs => if leadsWith pat (c :: cs) then some 0 else (findSub? pat cs).map (· + 1)

def fenceTok : Str := ['`', '`', '`']
def openTok : Str := ['[', '[']
def closeTok : Str := [']', ']']

/-- Modelled from the spec: the wikilink scanner underlying
`compute_wikilink_rename_edits` (missing from `link_parser.rs`) and the
spec's description of `extract_wikilinks` (whose actual body is a stub).
Scans left to right tracking the UTF-8 byte position;
skips over paired-triple-backtick fenced code blocks and
paired-single-backtick inline code spans (an unpaired opener is literal
text, per the spec's "paired" wording); at `[[` with a later `]]`, records
the token and resumes after `]]` (tokens with an empty name, such as
`[[]]`, are ignored, per the parser's unit tests).  `fuel` bounds the
recursion; every step consumes at least one character, so `s.length + 1`
is always enough. -/
def scanWiki : Nat → Str → Nat → List WikiToken
  | 0, _, _ => []
  | _ + 1, [], _ => []
  | fuel + 1, c :: cs, pos =>
    if leadsWith fenceTok (c :: cs) then
      match findSub? fenceTok ((c :: cs).drop 3) with
      | some i =>
          scanWiki fuel ((c :: cs).drop (3 + i + 3))
            (pos + bytesLen ((c :: cs).take (3 + i + 3)))
      | none => scanWiki fuel cs (pos + csize c)
    else if c == '`' then
      match findSub? ['`'] cs with
      | some i => scanWiki fuel (cs.drop (i + 1)) (pos + csize c + bytesLen (cs.take (i + 1)))
      | none => scanWiki fuel cs (pos + csize c)
    else if leadsWith openTok (c :: cs) then
      match findSub? closeTok ((c :: cs).drop 2) with
      | some i =>
          if linkName (((c :: cs).drop 2).take i) = [] then
            scanWiki fuel ((c :: cs).drop (2 + i + 2))
              (pos + 2 + bytesLen (((c :: cs).drop 2).take i) + 2)
          else
            { offset := pos, inner := ((c :: cs).drop 2).take i } ::
              scanWiki fuel ((c :: cs).drop (2 + i + 2))
                (pos + 2 + bytesLen (((c :: cs).drop 2).take i) + 2)
      | none => scanWiki fuel cs (pos + csize c)
    else scanWiki fuel cs (pos + csize c)

/-- All wikilink tokens of a markdown text, in document order. -/
def wikiTokens (s : Str) : List WikiToken := scanWiki (s.length + 1) s 0

/-- Embedding of `extract_wikilinks` exactly as it stands in
`link_parser.rs` lines 61-67: the body is `// TODO: Implement` followed by
`vec![]`, so the program extracts no links from any input. -/
def extract_wikilinks (_markdown : Str) : List Str := []

/-- The spec's words (4.1): `extract_wikilinks(markdown)` returns the link
names in document order, duplicates preserved, anchors/aliases stripped,
code spans/blocks ignored.  Stated for comparison against the program's
`extract_wikilinks` above. -/
def extract_wikilinks_spec (markdown : Str) : List Str :=
  (wikiTokens markdown).map (fun t => linkName t.inner)

/-- One text edit: byte offset, number of bytes to remove, replacement. -/
structure RenameEdit where
  offset : Nat
  removeLen : Nat
  insertText : Str
deriving DecidableEq, Repr

/-- Modelled from the spec: `compute_wikilink_rename_edits(text, old, new)`
(absent from `link_parser.rs`); one edit per wikilink token whose name
equals `old_name`, replacing just the name (preserving `#anchor`/`|alias`
suffixes), returned in descending byte-offset order (spec 4.3:
"applying all edits within one document in descending-offset order"). -/
def compute_wikilink_rename_edits (text old new : Str) : List RenameEdit :=
  (((wikiTokens text).filter (fun t => linkName t.inner = old)).map
    (fun t => { offset := t.offset + 2, removeLen := bytesLen old,
                insertText := new : RenameEdit })).reverse

/-- Splice on UTF-8 byte offsets: model of yrs `Text::remove_range` followed
by `Text::insert` at the same offset (yrs uses `OffsetKind::Bytes`). -/
def spliceBytes (text : Str) (off len : Nat) (ins : Str) : Str :=
  takeBytes off text ++ ins ++ dropBytes (off + len) text

def applyEdits (text : Str) (edits : List RenameEdit) : Str :=
  edits.foldl (fun t e => spliceBytes t e.offset e.removeLen e.insertText) text

/-- Embedding of `update_wikilinks_in_doc` (`link_indexer.rs`): read the
`contents` text (absent text: return 0 edits), compute the rename edits,
apply them in the order returned (descending offsets), return the new text
and the edit count. -/
def update_wikilinks_in_doc (contents : Option Str) (old new : Str) :
    Option Str × Nat :=
  match contents with
  | none => (none, 0)
  | some text =>
    let edits := compute_wikilink_rename_edits text old new
    if edits = [] then (some text, 0)
    else (some (applyEdits text edits), edits.length)

-- ---------------------------------------------------------------------------
-- LinkTargetResolver and the core indexing function (link_indexer.rs)
-- ---------------------------------------------------------------------------

def mdSuffix : Str := ['.', 'm', 'd']

/-- A loaded Y.Doc, reduced to the three root fields the indexing subsystem
touches: the `contents` text (absent when the doc has no such root), the
`filemeta_v0` map (absent when the doc has no such root map) of
path → uuid, and the `backlinks_v0` map of target uuid → ordered list of
source uuids (an absent map reads as empty and is created on first write,
so it is modelled as a plain list). -/
structure YDoc where
  contents : Option Str
  filemeta : Option (List (Str × Str))
  backlinks : List (Str × List Str)
deriving DecidableEq, Repr

/-- The comparand of the case-insensitive full-path rule:
`entry_path.strip_prefix('/').and_then(|s| s.strip_suffix(".md")).unwrap_or(entry_path)`
— note the fallback to the whole unstripped path when either strip fails. -/
def entryNameForFullMatch (path : Str) : Str :=
  match (stripPrefixChar '/' path).bind (stripSuffix mdSuffix) with
  | some s => s
  | none => path

/-- The comparand of the basename rule:
`entry_path.rsplit('/').next().and_then(|s| s.strip_suffix(".md")).unwrap_or("")`
— note the fallback to the empty string when the final segment does not end
in `.md`. -/
def basenameForMatch (path : Str) : Str :=
  match stripSuffix mdSuffix (lastSegment '/' path) with
  | some s => s
  | none => []

/-- Embedding of `resolve_links_to_uuids` (`link_indexer.rs` lines 90-148):
for each name try, in order, (a) exact map lookup of `/{name}.md`, (b) the
first filemeta entry (in iteration order) whose full-path comparand matches
case-insensitively, (c) the first entry whose basename comparand matches
case-insensitively; unresolvable names are skipped. -/
def resolve_one_link (name : Str) (filemeta : List (Str × Str)) : Option Str :=
  match alookup ('/' :: (name ++ mdSuffix)) filemeta with
  | some u => some u
  | none =>
    match filemeta.find?
        (fun e => lowerStr (entryNameForFullMatch e.1) == lowerStr name) with
    | some e => some e.2
    | none =>
      (filemeta.find?
        (fun e => lowerStr (basenameForMatch e.1) == lowerStr name)).map (·.2)

def resolve_links_to_uuids (link_names : List Str) (filemeta : List (Str × Str)) :
    List Str :=
  link_names.filterMap (fun name => resolve_one_link name filemeta)

/-- Step 3 of `index_content_into_folders`: resolve one name against the
folders in order; the first folder producing any uuid wins. -/
def firstResolve (name : Str) : List YDoc → Nat → Option (Str × Nat)
  | [], _ => none
  | f :: fs, i =>
    match f.filemeta with
    | some fm =>
      match resolve_links_to_uuids [name] fm with
      | u :: _ => some (u, i)
      | [] => firstResolve name fs (i + 1)
    | none => firstResolve name fs (i + 1)

/-- First-occurrence deduplication (the model of collecting into a
`HashSet` and iterating it). -/
def dedupAux : List Str → List Str → List Str
  | [], _ => []
  | x :: xs, seen =>
    if x ∈ seen then dedupAux xs seen else x :: dedupAux xs (x :: seen)

def dedupStr (l : List Str) : List Str := dedupAux l []

/-- The backlinks array stored under a target uuid (`read_backlinks_array`
composed with the map read; a missing key reads as the empty array). -/
def readBL (bl : List (Str × List Str)) (t : Str) : List Str :=
  (alookup t bl).getD []

/-- One iteration of the add loop of step 5: append the source uuid to this
target's backlink array if absent. -/
def addStep (source : Str) (bl : List (Str × List Str)) (t : Str) :
    List (Str × List Str) :=
  if source ∈ readBL bl t then bl else ainsert t (readBL bl t ++ [source]) bl

/-- The add loop of step 5 over all newly-resolved targets in this folder. -/
def addSourceLoop (source : Str) (targets : List Str)
    (bl : List (Str × List Str)) : List (Str × List Str) :=
  targets.foldl (addStep source) bl

/-- One iteration of the remove loop of step 5: for a key not among the
newly-resolved targets (across all folders), remove the source uuid,
deleting the key when its array becomes empty. -/
def remStep (source : Str) (allNewTargets : List Str)
    (bl : List (Str × List Str)) (k : Str) : List (Str × List Str) :=
  if k ∈ allNewTargets then bl
  else
    if source ∈ readBL bl k then
      if readBL bl k |>.filter (· ≠ source) |>.isEmpty then aerase k bl
      else ainsert k (readBL bl k |>.filter (· ≠ source)) bl
    else bl

/-- The remove loop of step 5 over the key snapshot taken after the add
loop. -/
def removeStaleLoop (source : Str) (allNewTargets : List Str)
    (bl : List (Str × List Str)) : List (Str × List Str) :=
  (akeys bl).foldl (remStep source allNewTargets) bl

/-- `iter().enumerate().map(...)`: apply `f` to each element with its
index, starting from `i`. -/
def mapWithIndex {α β : Type} (f : Nat → α → β) : Nat → List α → List β
  | _, [] => []
  | i, a :: as => f i a :: mapWithIndex f (i + 1) as

/-- Steps 4-5 of `index_content_into_folders` for the folder at index `fi`:
dedupe this folder's resolved targets (the `HashSet`), run the add loop,
then the remove loop against the cross-folder target set
(`all_new_targets`). -/
def diffUpdateFolder (source_uuid : Str) (resolved : List (Str × Nat))
    (fi : Nat) (f : YDoc) : YDoc :=
  let bl := removeStaleLoop source_uuid (resolved.map (·.1))
    (addSourceLoop source_uuid
      (dedupStr (resolved.filterMap
        (fun p => if p.2 = fi then some p.1 else none)))
      f.backlinks)
  { f with backlinks := bl }

/-- Embedding of `index_content_into_folders` (`link_indexer.rs` lines
211-315): extract wikilinks from the content text (no text: no-op), resolve
each name across the folders in order, group resolved targets by folder,
then diff-update each folder's `backlinks_v0`. -/
def index_content_into_folders (source_uuid : Str) (content_doc : YDoc)
    (folder_docs : List YDoc) : List YDoc :=
  match content_doc.contents with
  | none => folder_docs
  | some markdown =>
    let link_names := extract_wikilinks markdown
    let resolved : List (Str × Nat) :=
      link_names.filterMap (fun n => firstResolve n folder_docs 0)
    mapWithIndex (diffUpdateFolder source_uuid resolved) 0 folder_docs

/-- Embedding of `index_content_into_folder`: the single-folder wrapper. -/
def index_content_into_folder (source_uuid : Str) (content_doc : YDoc)
    (folder_doc : YDoc) : YDoc :=
  (index_content_into_folders source_uuid content_doc [folder_doc]).headD folder_doc

-- ---------------------------------------------------------------------------
-- parse_doc_id (link_indexer.rs lines 20-30)
-- ---------------------------------------------------------------------------

/-- Embedding of `parse_doc_id`: accept iff the UTF-8 byte length is at
least 73 and byte 36 is `-` (0x2D); on success return the characters of the
first 36 bytes and of the bytes from 37 on.  No shape validation of either
half is performed. -/
def parse_doc_id (doc_id : Str) : Option (Str × Str) :=
  if bytesLen doc_id ≥ 73 ∧ (utf8Bytes doc_id).get? 36 = some 45 then
    some (takeBytes 36 doc_id, dropBytes 37 doc_id)
  else none

/-- Rust `&s[..n]` with its panic made explicit: `none` when byte `n` is
not a character boundary. -/
def sliceToByte (n : Nat) : Str → Option Str
  | [] => if n = 0 then some [] else none
  | c :: cs =>
    if n = 0 then some []
    else if csize c ≤ n then (sliceToByte (n - csize c) cs).map (c :: ·)
    else none

/-- Rust `&s[n..]` with its panic made explicit. -/
def sliceFromByte (n : Nat) : Str → Option Str
  | [] => if n = 0 then some [] else none
  | c :: cs =>
    if n = 0 then some (c :: cs)
    else if csize c ≤ n then sliceFromByte (n - csize c) cs
    else none

/-- `parse_doc_id` with Rust's slicing panics surfaced as `Except.error`:
the byte-length and byte-36 guards never panic (36 < 73 ≤ len), but
`&doc_id[..36]` / `&doc_id[37..]` panic when the cut is not a character
boundary. -/
def parse_doc_id_rs (doc_id : Str) : Except Unit (Option (Str × Str)) :=
  if bytesLen doc_id ≥ 73 ∧ (utf8Bytes doc_id).get? 36 = some 45 then
    match sliceToByte 36 doc_id, sliceFromByte 37 doc_id with
    | some a, some b => Except.ok (some (a, b))
    | _, _ => Except.error ()
  else Except.ok none

-- ---------------------------------------------------------------------------
-- detect_renames (link_indexer.rs lines 430-486)
-- ---------------------------------------------------------------------------

/-- The basename computed inside `detect_renames`:
`path.strip_prefix('/').unwrap_or(&path).strip_suffix(".md").unwrap_or(&path).rsplit('/').next().unwrap_or(&path)`
— note that when the `/`-stripped path does not end in `.md`, the fallback
is the original path (leading `/` restored). -/
def renameBasename (path : Str) : Str :=
  let a := (stripPrefixChar '/' path).getD path
  let b := (stripSuffix mdSuffix a).getD path
  lastSegment '/' b

/-- The `{uuid -> basename}` snapshot `detect_renames` builds from a
filemeta map (`HashMap::insert` keyed by uuid: a later entry with the same
uuid overwrites an earlier one). -/
def buildSnapshot (filemeta : List (Str × Str)) : List (Str × Str) :=
  filemeta.foldl (fun m e => ainsert e.2 (renameBasename e.1) m) []

structure RenameEvent where
  uuid : Str
  old_name : Str
  new_name : Str
deriving DecidableEq, Repr

/-- The filemeta-snapshot cache (`LinkIndexer.filemeta_cache`):
folder_doc_id → {uuid → basename}. -/
abbrev SnapshotCache := List (Str × List (Str × Str))

/-- The comparison loop of `detect_renames`: for each uuid of the current
snapshot also present in the old snapshot with a different basename, one
RenameEvent. -/
def renameEventsOf (old current : List (Str × Str)) : List RenameEvent :=
  current.filterMap (fun e =>
    match alookup e.1 old with
    | some ob =>
      if ob ≠ e.2 then
        some { uuid := e.1, old_name := ob, new_name := e.2 }
      else none
    | none => none)

/-- Embedding of `LinkIndexer::detect_renames`: build the current snapshot
(no `filemeta_v0` root: return no events without touching the cache), fetch
the previous snapshot, overwrite the cache, and — unless this was the
seeding call — emit one event per uuid present in both snapshots whose
basename changed. -/
def detect_renames (cache : SnapshotCache) (folder_doc_id : Str)
    (folder_doc : YDoc) : List RenameEvent × SnapshotCache :=
  match folder_doc.filemeta with
  | none => ([], cache)
  | some fm =>
    let current := buildSnapshot fm
    let oldOpt := alookup folder_doc_id cache
    let cache' := ainsert folder_doc_id current cache
    match oldOpt with
    | none => ([], cache')
    | some old => (renameEventsOf old current, cache')

-- ---------------------------------------------------------------------------
-- The document store (DashMap<String, DocWithSyncKv>) and its scans
-- ---------------------------------------------------------------------------

abbrev DocStore := List (Str × YDoc)

/-- Embedding of `find_all_folder_docs`: doc ids with a non-empty
`filemeta_v0`, sorted. -/
def find_all_folder_docs (docs : DocStore) : List Str :=
  sortStrs ((docs.filter (fun e =>
    match e.2.filemeta with
    | some fm => fm.length > 0
    | none => false)).map (·.1))

/-- Embedding of `is_folder_doc`: the content uuids listed in a non-empty
`filemeta_v0`, when the doc is loaded and is a folder doc. -/
def is_folder_doc (doc_id : Str) (docs : DocStore) : Option (List Str) :=
  match alookup doc_id docs with
  | none => none
  | some d =>
    match d.filemeta with
    | none => none
    | some fm => if fm.length = 0 then none else some (fm.map (·.2))

/-- The three `anyhow::anyhow!` errors `index_document` can produce. -/
inductive IndexError where
  | invalidDocIdFormat
  | noFolderDocsFound
  | contentDocNotFound
deriving DecidableEq, Repr

/-- Embedding of `LinkIndexer::index_document`: parse the doc_id, find all
folder docs (error when none), look up the content doc (error when
missing), then run `index_content_into_folders` against every folder doc
and write the updated folder docs back.  The error, if any, is returned
alongside the (then unchanged) store. -/
def index_document (doc_id : Str) (docs : DocStore) :
    Option IndexError × DocStore :=
  match parse_doc_id doc_id with
  | none => (some IndexError.invalidDocIdFormat, docs)
  | some (_relay_id, doc_uuid) =>
    let folder_doc_ids := find_all_folder_docs docs
    if folder_doc_ids = [] then (some IndexError.noFolderDocsFound, docs)
    else
      match alookup doc_id docs with
      | none => (some IndexError.contentDocNotFound, docs)
      | some content_doc =>
        let folder_refs : List (Str × YDoc) :=
          folder_doc_ids.filterMap (fun i => (alookup i docs).map (fun d => (i, d)))
        let updated := index_content_into_folders doc_uuid content_doc
          (folder_refs.map (·.2))
        let docs' := ((folder_refs.map (·.1)).zip updated).foldl
          (fun ds p => ainsert p.1 p.2 ds) docs
        (none, docs')

/-- Embedding of `reindex_all_backlinks`: call `index_document` for every
loaded doc in iteration order (errors only counted, never aborting the
loop), then seed the filemeta cache by running `detect_renames` on every
folder doc.  Returns the new store, the new cache, and the
(indexed, skipped) counters. -/
def reindex_all_backlinks (cache : SnapshotCache) (docs : DocStore) :
    DocStore × SnapshotCache × Nat × Nat :=
  let step := (akeys docs).foldl
    (fun acc doc_id =>
      match index_document doc_id acc.1 with
      | (none, ds) => (ds, acc.2.1 + 1, acc.2.2)
      | (some _, ds) => (ds, acc.2.1, acc.2.2 + 1))
    (docs, 0, 0)
  let docs' := step.1
  let cache' := (find_all_folder_docs docs').foldl
    (fun c fid =>
      match alookup fid docs' with
      | some d => (detect_renames c fid d).2
      | none => c)
    cache
  (docs', cache', step.2.1, step.2.2)

-- ---------------------------------------------------------------------------
-- DocumentResolver (doc_resolver.rs)
-- ---------------------------------------------------------------------------

structure DocInfo where
  uuid : Str
  relay_id : Str
  folder_doc_id : Str
  folder_name : Str
  doc_id : Str
deriving DecidableEq, Repr

/-- Embedding of `derive_folder_name`: index 0 → "Lens", any other
index → "Lens Edu". -/
def derive_folder_name (folder_idx : Nat) : Str :=
  if folder_idx = 0 then "Lens".data else "Lens Edu".data

/-- The resolver's two maps: forward path → DocInfo, reverse uuid → path. -/
structure DocumentResolver where
  path_to_doc : List (Str × DocInfo)
  uuid_to_path : List (Str × Str)
deriving DecidableEq, Repr

def DocumentResolver.empty : DocumentResolver :=
  { path_to_doc := [], uuid_to_path := [] }

def resolve_path (r : DocumentResolver) (path : Str) : Option DocInfo :=
  alookup path r.path_to_doc

def path_for_uuid (r : DocumentResolver) (uuid : Str) : Option Str :=
  alookup uuid r.uuid_to_path

def all_paths (r : DocumentResolver) : List Str := akeys r.path_to_doc

/-- The display path and DocInfo derived for one filemeta entry by
`rebuild_from_folder_doc`. -/
def derivedEntry (folder_doc_id : Str) (folder_idx : Nat) (path uuid : Str) :
    Str × DocInfo :=
  let folder_name := derive_folder_name folder_idx
  let relay_id := ((parse_doc_id folder_doc_id).map (·.1)).getD []
  let stripped := (stripPrefixChar '/' path).getD path
  let full_path := folder_name ++ '/' :: stripped
  (full_path,
    { uuid := uuid, relay_id := relay_id, folder_doc_id := folder_doc_id,
      folder_name := folder_name, doc_id := relay_id ++ '-' :: uuid })

/-- One `rebuild_from_folder_doc` loop iteration: insert uuid → full_path
into the reverse map and full_path → DocInfo into the forward map. -/
def insertEntryStep (folder_doc_id : Str) (folder_idx : Nat)
    (r : DocumentResolver) (e : Str × Str) : DocumentResolver :=
  let d := derivedEntry folder_doc_id folder_idx e.1 e.2
  { path_to_doc := ainsert d.1 d.2 r.path_to_doc,
    uuid_to_path := ainsert e.2 d.1 r.uuid_to_path }

def insertFolderEntries (folder_doc_id : Str) (folder_idx : Nat)
    (fm : List (Str × Str)) (r : DocumentResolver) : DocumentResolver :=
  fm.foldl (insertEntryStep folder_doc_id folder_idx) r

/-- Embedding of `rebuild_from_folder_doc`: insert every filemeta entry
into both maps (no `filemeta_v0` root: no change). -/
def rebuild_from_folder_doc (r : DocumentResolver) (folder_doc_id : Str)
    (folder_idx : Nat) (doc : YDoc) : DocumentResolver :=
  match doc.filemeta with
  | none => r
  | some fm => insertFolderEntries folder_doc_id folder_idx fm r

/-- The paths `remove_folder_entries` collects: forward-map entries whose
DocInfo carries this folder_doc_id. -/
def removedPathsOf (r : DocumentResolver) (folder_doc_id : Str) : List Str :=
  (r.path_to_doc.filter (fun e => e.2.folder_doc_id = folder_doc_id)).map (·.1)

/-- One `remove_folder_entries` loop iteration: remove the path from the
forward map and its recorded uuid from the reverse map. -/
def removeEntryStep (r : DocumentResolver) (p : Str) : DocumentResolver :=
  match alookup p r.path_to_doc with
  | some info =>
    { path_to_doc := aerase p r.path_to_doc,
      uuid_to_path := aerase info.uuid r.uuid_to_path }
  | none => r

/-- Embedding of `remove_folder_entries`. -/
def remove_folder_entries (r : DocumentResolver) (folder_doc_id : Str) :
    DocumentResolver :=
  (removedPathsOf r folder_doc_id).foldl removeEntryStep r

/-- Embedding of `update_folder_from_doc` (and of `update_folder`, whose
only difference is fetching the Y.Doc from the DashMap): remove this
folder's entries, then re-derive from its current filemeta. -/
def update_folder_from_doc (r : DocumentResolver) (folder_doc_id : Str)
    (folder_idx : Nat) (doc : YDoc) : DocumentResolver :=
  rebuild_from_folder_doc (remove_folder_entries r folder_doc_id)
    folder_doc_id folder_idx doc

/-- One folder of the full rebuild: fetch the Y.Doc (index, doc_id pair)
and re-derive its entries. -/
def rebuildStoreStep (docs : DocStore) (r : DocumentResolver)
    (p : Nat × Str) : DocumentResolver :=
  match alookup p.2 docs with
  | some d => rebuild_from_folder_doc r p.2 p.1 d
  | none => r

/-- Embedding of `DocumentResolver::rebuild`: clear both maps, enumerate
the folder docs sorted by doc_id, and re-derive each folder's entries with
its position as the folder index. -/
def DocumentResolver.rebuild (docs : DocStore) : DocumentResolver :=
  let ids := sortStrs (find_all_folder_docs docs)
  ((List.range ids.length).zip ids).foldl (rebuildStoreStep docs)
    DocumentResolver.empty

-- ---------------------------------------------------------------------------
-- Scanner facts: token offsets are strictly ascending in document order
-- ---------------------------------------------------------------------------

theorem scanWiki_mem_offset_ge :
    ∀ (fuel : Nat) (s : Str) (pos : Nat) (t : WikiToken),
      t ∈ scanWiki fuel s pos → pos ≤ t.offset := by
  intro fuel
  induction fuel with
  | zero =>
    intro s pos t h
    simp [scanWiki] at h
  | succ n ih =>
    intro s pos t h
    cases s with
    | nil => simp [scanWiki] at h
    | cons c cs =>
      rw [scanWiki] at h
      split at h
      · split at h
        · have := ih _ _ _ h
          omega
        · have := ih _ _ _ h
          omega
      · split at h
        · split at h
          · have := ih _ _ _ h
            omega
          · have := ih _ _ _ h
            omega
        · split at h
          · split at h
            · split at h
              · have := ih _ _ _ h
                omega
              · rcases List.mem_cons.mp h with h2 | h2
                · subst h2
                  exact Nat.le_refl _
                · have := ih _ _ _ h2
                  omega
            · have := ih _ _ _ h
              omega
          · have := ih _ _ _ h
            omega

theorem scanWiki_offsets_pairwise :
    ∀ (fuel : Nat) (s : Str) (pos : Nat),
      ((scanWiki fuel s pos).map (fun t => t.offset)).Pairwise (· < ·) := by
  intro fuel
  induction fuel with
  | zero =>
    intro s pos
    simp [scanWiki]
  | succ n ih =>
    intro s pos
    cases s with
    | nil => simp [scanWiki]
    | cons c cs =>
      rw [scanWiki]
      split
      · split
        · exact ih _ _
        · exact ih _ _
      · split
        · split
          · exact ih _ _
          · exact ih _ _
        · split
          · split
            · split
              · exact ih _ _
              · rw [List.map_cons, List.pairwise_cons]
                refine ⟨fun o ho => ?_, ih _ _⟩
                rw [List.mem_map] at ho
                obtain ⟨t, ht, rfl⟩ := ho
                have := scanWiki_mem_offset_ge n _ _ t ht
                dsimp only
                omega
            · exact ih _ _
          · exact ih _ _

/-- Token offsets of a markdown text are strictly ascending (document
order). -/
theorem wikiTokens_offsets_ascending (md : Str) :
    ((wikiTokens md).map (fun t => t.offset)).Pairwise (· < ·) :=
  scanWiki_offsets_pairwise _ _ _

/-- C1: the claim's worked example fails against the program.  With
`extract_wikilinks` as it stands in the source (a stub returning the empty
list), indexing the content "See [[Ideas]] for more" extracts no links,
leaves the folder document unchanged, and in particular records no
backlink under "uuid-ideas" — the claim requires `some ["uuid-notes"]`. -/
theorem c1_index_example_bug :
    extract_wikilinks "See [[Ideas]] for more".data = [] ∧
    alookup "uuid-ideas".data
        (index_content_into_folder "uuid-notes".data
          { contents := some "See [[Ideas]] for more".data,
            filemeta := none, backlinks := [] }
          { contents := none,
            filemeta := some [("/Notes.md".data, "uuid-notes".data),
                              ("/Ideas.md".data, "uuid-ideas".data)],
            backlinks := [] }).backlinks
      = none ∧
    (index_content_into_folders "uuid-notes".data
          { contents := some "See [[Ideas]] for more".data,
            filemeta := none, backlinks := [] }
          [{ contents := none,
             filemeta := some [("/Notes.md".data, "uuid-notes".data),
                               ("/Ideas.md".data, "uuid-ideas".data)],
             backlinks := [] }]).map (fun f => f.backlinks)
      = [[]] ∧
    (none : Option (List Str)) ≠ some ["uuid-notes".data] := by
  refine ⟨rfl, by decide, by decide, by decide⟩

/-- C2: the program's `extract_wikilinks` (a `// TODO: Implement` stub
returning `vec![]`) returns the empty list for every input, so on
"[[Note]]" it returns `[]` where the claim — and the spec's description,
captured by `extract_wikilinks_spec` — requires `["Note"]`. -/
theorem c2_extract_wikilinks_bug :
    (∀ md, extract_wikilinks md = []) ∧
    extract_wikilinks "[[Note]]".data = [] ∧
    extract_wikilinks_spec "[[Note]]".data = ["Note".data] ∧
    extract_wikilinks "[[Note]]".data
      ≠ extract_wikilinks_spec "[[Note]]".data := by
  refine ⟨fun md => rfl, rfl, by decide, by decide⟩

/-- C5: `update_wikilinks_in_doc` rewrites every wikilink token whose name
matches `old_name` to `new_name`, preserving `#anchor`/`|alias` suffixes
("[[Foo#Section]] and [[Foo|Display]]" becomes
"[[Bar#Section]] and [[Bar|Display]]"); the returned count equals the
number of matching tokens; a doc without a contents text is untouched; and
the edits are produced in strictly descending byte-offset order. -/
theorem c5_update_wikilinks_spec :
    update_wikilinks_in_doc (some "[[Foo#Section]] and [[Foo|Display]]".data)
        "Foo".data "Bar".data
      = (some "[[Bar#Section]] and [[Bar|Display]]".data, 2) ∧
    (∀ text old new,
      (update_wikilinks_in_doc (some text) old new).2
        = ((wikiTokens text).filter (fun t => linkName t.inner = old)).length) ∧
    (∀ old new, update_wikilinks_in_doc none old new = (none, 0)) ∧
    (∀ text old new,
      ((compute_wikilink_rename_edits text old new).map
        (fun e => e.offset)).Pairwise (· > ·)) := by
  refine ⟨by decide, fun text old new => ?_, fun old new => rfl,
    fun text old new => ?_⟩
  · show (let edits := compute_wikilink_rename_edits text old new;
      if edits = [] then (some text, 0)
      else (some (applyEdits text edits), edits.length)).2 = _
    by_cases h : compute_wikilink_rename_edits text old new = []
    · rw [if_pos]
      · have h2 := congrArg List.length h
        rw [compute_wikilink_rename_edits] at h2
        simpa using h2.symm
      · exact h
    · rw [if_neg h]
      show (compute_wikilink_rename_edits text old new).length = _
      rw [compute_wikilink_rename_edits]
      simp
  · rw [compute_wikilink_rename_edits, List.map_reverse, List.pairwise_reverse,
      List.map_map, List.pairwise_map]
    have base : ((wikiTokens text).filter
        (fun t => decide (linkName t.inner = old))).Pairwise
        (fun a b => a.offset < b.offset) := by
      refine List.Pairwise.sublist (List.filter_sublist _) ?_
      exact List.pairwise_map.mp (wikiTokens_offsets_ascending text)
    refine base.imp ?_
    intro a b hab
    simp only [Function.comp]
    omega

-- ---------------------------------------------------------------------------
-- detect_renames facts (C4)
-- ---------------------------------------------------------------------------

theorem nodupKeys_buildSnapshot (fm : List (Str × Str)) :
    NodupKeys (buildSnapshot fm) := by
  have gen : ∀ (l : List (Str × Str)) (m : List (Str × Str)), NodupKeys m →
      NodupKeys (l.foldl (fun m e => ainsert e.2 (renameBasename e.1) m) m) := by
    intro l
    induction l with
    | nil => intro m hm; exact hm
    | cons e t ih =>
      intro m hm
      exact ih _ (nodupKeys_ainsert _ _ hm)
  exact gen fm [] List.nodup_nil

theorem mem_renameEventsOf {old current : List (Str × Str)} {ev : RenameEvent}
    (hnd : NodupKeys current) :
    ev ∈ renameEventsOf old current ↔
      alookup ev.uuid old = some ev.old_name ∧
      alookup ev.uuid current = some ev.new_name ∧
      ev.old_name ≠ ev.new_name := by
  rw [renameEventsOf, List.mem_filterMap]
  constructor
  · rintro ⟨e, he, hf⟩
    obtain ⟨u, nb⟩ := e
    dsimp only at hf
    cases hl : alookup u old with
    | none => rw [hl] at hf; simp at hf
    | some ob =>
      rw [hl] at hf
      dsimp only at hf
      by_cases hne : ob ≠ nb
      · rw [if_pos hne] at hf
        obtain rfl := (Option.some.injEq _ _).mp hf
        exact ⟨hl, alookup_eq_some_of_mem hnd he, hne⟩
      · rw [if_neg hne] at hf
        simp at hf
  · rintro ⟨hold, hcur, hne⟩
    refine ⟨(ev.uuid, ev.new_name), mem_of_alookup_eq_some hcur, ?_⟩
    dsimp only
    rw [hold]
    dsimp only
    rw [if_pos hne]

theorem renameEventsOf_uuid_mem {old current : List (Str × Str)}
    {ev : RenameEvent} (h : ev ∈ renameEventsOf old current) :
    ev.uuid ∈ akeys current := by
  rw [renameEventsOf, List.mem_filterMap] at h
  obtain ⟨e, he, hf⟩ := h
  obtain ⟨u, nb⟩ := e
  dsimp only at hf
  cases hl : alookup u old with
  | none => rw [hl] at hf; simp at hf
  | some ob =>
    rw [hl] at hf
    dsimp only at hf
    by_cases hne : ob ≠ nb
    · rw [if_pos hne] at hf
      obtain rfl := (Option.some.injEq _ _).mp hf
      exact List.mem_map_of_mem (·.1) he
    · rw [if_neg hne] at hf
      simp at hf

theorem renameEventsOf_uuids_nodup {old : List (Str × Str)} :
    ∀ {current : List (Str × Str)}, NodupKeys current →
      ((renameEventsOf old current).map (fun ev => ev.uuid)).Nodup := by
  intro current
  induction current with
  | nil =>
    intro _
    simp [renameEventsOf]
  | cons e t ih =>
    intro hnd
    obtain ⟨u, nb⟩ := e
    rw [nodupKeys_cons] at hnd
    rw [renameEventsOf, List.filterMap_cons]
    cases hl : alookup u old with
    | none => exact ih hnd.2
    | some ob =>
      dsimp only
      by_cases hne : ob ≠ nb
      · rw [if_pos hne]
        dsimp only
        rw [List.map_cons, List.nodup_cons]
        refine ⟨fun hmem => ?_, ih hnd.2⟩
        rw [List.mem_map] at hmem
        obtain ⟨ev, hev, huuid⟩ := hmem
        have := renameEventsOf_uuid_mem hev
        rw [huuid] at this
        exact hnd.1 this
      · rw [if_neg hne]
        exact ih hnd.2

/-- C4: `detect_renames` seeds the cache and returns no events on the first
call for a folder_doc_id; on subsequent calls it emits exactly one
RenameEvent per uuid present in both snapshots whose basename changed
(membership characterisation plus uuid-uniqueness of the emitted events);
uuids present in only one snapshot produce no event (their lookups cannot
both succeed); and a path change preserving the basename
("/Notes/Foo.md" → "/Archive/Foo.md") produces no event. -/
theorem c4_detect_renames_spec :
    (∀ (cache : SnapshotCache) (fid : Str) (doc : YDoc)
        (fm : List (Str × Str)),
      doc.filemeta = some fm → alookup fid cache = none →
      detect_renames cache fid doc
        = ([], ainsert fid (buildSnapshot fm) cache)) ∧
    (∀ (cache : SnapshotCache) (fid : Str) (doc : YDoc)
        (fm old : List (Str × Str)),
      doc.filemeta = some fm → alookup fid cache = some old →
      (detect_renames cache fid doc).2
          = ainsert fid (buildSnapshot fm) cache ∧
      (∀ ev, ev ∈ (detect_renames cache fid doc).1 ↔
        alookup ev.uuid old = some ev.old_name ∧
        alookup ev.uuid (buildSnapshot fm) = some ev.new_name ∧
        ev.old_name ≠ ev.new_name) ∧
      ((detect_renames cache fid doc).1.map (fun ev => ev.uuid)).Nodup) ∧
    (detect_renames
        (ainsert "folder-1".data
          (buildSnapshot [("/Notes/Foo.md".data, "u1".data)]) [])
        "folder-1".data
        { contents := none,
          filemeta := some [("/Archive/Foo.md".data, "u1".data)],
          backlinks := [] }).1 = [] := by
  refine ⟨?_, ?_, by decide⟩
  · intro cache fid doc fm hmeta hnone
    rw [detect_renames, hmeta]
    show (let current := buildSnapshot fm;
      let oldOpt := alookup fid cache;
      let cache' := ainsert fid current cache;
      match oldOpt with
      | none => ([], cache')
      | some old => (renameEventsOf old current, cache')) = _
    rw [hnone]
  · intro cache fid doc fm old hmeta hsome
    have hform : detect_renames cache fid doc
        = (renameEventsOf old (buildSnapshot fm),
           ainsert fid (buildSnapshot fm) cache) := by
      rw [detect_renames, hmeta]
      show (let current := buildSnapshot fm;
        let oldOpt := alookup fid cache;
        let cache' := ainsert fid current cache;
        match oldOpt with
        | none => ([], cache')
        | some old => (renameEventsOf old current, cache')) = _
      rw [hsome]
    rw [hform]
    exact ⟨rfl, fun ev => mem_renameEventsOf (nodupKeys_buildSnapshot fm),
      renameEventsOf_uuids_nodup (nodupKeys_buildSnapshot fm)⟩

/-- Witness for C4: first observation of a folder seeds the cache and
returns no events, and a subsequent genuine basename rename
(/Foo.md → /Bar.md, same uuid) emits the event uuid u1, Foo → Bar. -/
theorem c4_detect_renames_witness :
    detect_renames [] "folder-1".data
        { contents := none,
          filemeta := some [("/Foo.md".data, "u1".data)], backlinks := [] }
      = ([], ainsert "folder-1".data
          (buildSnapshot [("/Foo.md".data, "u1".data)]) []) ∧
    ({ uuid := "u1".data, old_name := "Foo".data, new_name := "Bar".data }
        : RenameEvent) ∈
      (detect_renames
        (ainsert "folder-1".data
          (buildSnapshot [("/Foo.md".data, "u1".data)]) [])
        "folder-1".data
        { contents := none,
          filemeta := some [("/Bar.md".data, "u1".data)],
          backlinks := [] }).1 := by
  constructor
  · exact c4_detect_renames_spec.1 [] _ _ _ rfl rfl
  · refine (((c4_detect_renames_spec.2.1 _ _ _
      [("/Bar.md".data, "u1".data)]
      (buildSnapshot [("/Foo.md".data, "u1".data)]) rfl (by decide)).2.1
      { uuid := "u1".data, old_name := "Foo".data, new_name := "Bar".data }).mpr
      ⟨by decide, by decide, by decide⟩)

-- ---------------------------------------------------------------------------
-- UTF-8 facts for parse_doc_id (C10)
-- ---------------------------------------------------------------------------

theorem csize_pos (c : Char) : 1 ≤ csize c := by
  rw [csize]
  split_ifs <;> omega

theorem encodeChar_length (c : Char) : (encodeChar c).length = csize c := by
  rw [encodeChar, csize]
  split_ifs <;> rfl

theorem encodeChar_of_byte_lt {c : Char} {b : Nat} (hmem : b ∈ encodeChar c)
    (hb : b < 128) : encodeChar c = [b] := by
  rw [encodeChar] at hmem ⊢
  split_ifs at hmem ⊢ with h1 h2 h3
  · rw [List.mem_singleton] at hmem
    rw [hmem]
  · rcases List.mem_cons.mp hmem with h | h
    · omega
    · rw [List.mem_singleton] at h
      omega
  · rcases List.mem_cons.mp hmem with h | h
    · omega
    · rcases List.mem_cons.mp h with h | h
      · omega
      · rw [List.mem_singleton] at h
        omega
  · rcases List.mem_cons.mp hmem with h | h
    · omega
    · rcases List.mem_cons.mp h with h | h
      · omega
      · rcases List.mem_cons.mp h with h | h
        · omega
        · rw [List.mem_singleton] at h
          omega

theorem utf8Bytes_cons (c : Char) (cs : Str) :
    utf8Bytes (c :: cs) = encodeChar c ++ utf8Bytes cs := by
  rw [utf8Bytes, utf8Bytes, List.map_cons, List.flatten_cons]

theorem dropBytes_zero (s : Str) : dropBytes 0 s = s := by
  cases s with
  | nil => rfl
  | cons c cs =>
    rw [dropBytes, if_neg]
    have := csize_pos c
    omega

theorem sliceFromByte_zero (s : Str) : sliceFromByte 0 s = some s := by
  cases s with
  | nil => rfl
  | cons c cs => rw [sliceFromByte, if_pos rfl]

theorem bytesLen_eq_utf8Bytes_length (s : Str) :
    bytesLen s = (utf8Bytes s).length := by
  induction s with
  | nil => rfl
  | cons c cs ih =>
    have h1 : bytesLen (c :: cs) = csize c + bytesLen cs := by
      simp [bytesLen]
    rw [h1, utf8Bytes_cons, List.length_append, encodeChar_length, ih]

/-- An ASCII byte (value < 128) inside a UTF-8 stream is always a whole
character: cutting immediately before or after it is safe, and the
byte-level cut agrees with the character-level cut. -/
theorem ascii_byte_split :
    ∀ (s : Str) (i b : Nat), (utf8Bytes s).get? i = some b → b < 128 →
      sliceToByte i s = some (takeBytes i s) ∧
      sliceFromByte (i + 1) s = some (dropBytes (i + 1) s) ∧
      utf8Bytes (takeBytes i s) = (utf8Bytes s).take i ∧
      utf8Bytes (dropBytes (i + 1) s) = (utf8Bytes s).drop (i + 1) := by
  intro s
  induction s with
  | nil =>
    intro i b h hb
    simp [utf8Bytes] at h
  | cons c cs ih =>
    intro i b h hb
    rw [utf8Bytes_cons] at h
    by_cases hi : i < (encodeChar c).length
    · -- the byte lands inside the head character's encoding
      rw [List.get?_append hi] at h
      have hmem : b ∈ encodeChar c := List.get?_mem h
      have henc := encodeChar_of_byte_lt hmem hb
      have hlen : (encodeChar c).length = 1 := by rw [henc]; rfl
      have hcs : csize c = 1 := by rw [← encodeChar_length, hlen]
      have hi0 : i = 0 := by omega
      subst hi0
      refine ⟨?_, ?_, ?_, ?_⟩
      · rw [sliceToByte, if_pos rfl, takeBytes, if_neg (by omega)]
      · rw [sliceFromByte, if_neg (by omega), if_pos (by omega), hcs,
          dropBytes, if_pos (by omega), hcs]
        rw [sliceFromByte_zero, dropBytes_zero]
      · rw [takeBytes, if_neg (by omega)]
        rfl
      · rw [dropBytes, if_pos (by omega), hcs, dropBytes_zero,
          utf8Bytes_cons, henc]
        rfl
    · -- the byte lands in the tail
      push_neg at hi
      rw [List.get?_append_right hi] at h
      rw [encodeChar_length] at hi
      have hc1 := csize_pos c
      have ihh := ih (i - (encodeChar c).length) b h hb
      rw [encodeChar_length] at ihh
      obtain ⟨ih1, ih2, ih3, ih4⟩ := ihh
      refine ⟨?_, ?_, ?_, ?_⟩
      · rw [sliceToByte, if_neg (by omega), if_pos (by omega), ih1,
          takeBytes, if_pos (by omega)]
        rfl
      · rw [sliceFromByte, if_neg (by omega), if_pos (by omega),
          dropBytes, if_pos (by omega)]
        have harith : i + 1 - csize c = i - csize c + 1 := by omega
        rw [harith, ih2]
      · rw [takeBytes, if_pos (by omega), utf8Bytes_cons, utf8Bytes_cons, ih3,
          List.take_append_eq_append_take,
          @List.take_of_length_le _ i (encodeChar c)
            (by rw [encodeChar_length]; omega),
          encodeChar_length]
      · rw [dropBytes, if_pos (by omega)]
        have harith : i + 1 - csize c = i - csize c + 1 := by omega
        rw [harith, ih4, utf8Bytes_cons, List.drop_append_eq_append_drop,
          @List.drop_eq_nil_of_le _ (encodeChar c) (i + 1)
            (by rw [encodeChar_length]; omega),
          List.nil_append, encodeChar_length, harith]

/-- C10: `parse_doc_id` is total and never panics (the byte-36 guard value
`-` is ASCII, so bytes 36 and 37 are always character boundaries and the
two slices cannot panic); it returns `Some` iff the input is at least 73
bytes long with byte 36 equal to `-` (0x2D), splitting into bytes 0..36 and
bytes 37..; and it does no UUID-shape validation: a 73-byte string of `x`
with `-` at byte 36 is accepted. -/
theorem c10_parse_doc_id_spec :
    (∀ s, parse_doc_id_rs s = Except.ok (parse_doc_id s)) ∧
    (∀ s, (parse_doc_id s).isSome ↔
      (73 ≤ bytesLen s ∧ (utf8Bytes s).get? 36 = some 45)) ∧
    (∀ s r u, parse_doc_id s = some (r, u) →
      r = takeBytes 36 s ∧ u = dropBytes 37 s ∧
      utf8Bytes r = (utf8Bytes s).take 36 ∧
      utf8Bytes u = (utf8Bytes s).drop 37) ∧
    parse_doc_id (List.replicate 36 'x' ++ '-' :: List.replicate 36 'x')
      = some (List.replicate 36 'x', List.replicate 36 'x') := by
  refine ⟨fun s => ?_, fun s => ?_, fun s r u h => ?_, by decide⟩
  · rw [parse_doc_id_rs, parse_doc_id]
    by_cases hg : 73 ≤ bytesLen s ∧ (utf8Bytes s).get? 36 = some 45
    · rw [if_pos hg, if_pos hg]
      obtain ⟨h1, h2, _, _⟩ := ascii_byte_split s 36 45 hg.2 (by omega)
      rw [h1, h2]
    · rw [if_neg hg, if_neg hg]
  · rw [parse_doc_id]
    split_ifs with hg
    · simpa using hg
    · simpa using hg
  · rw [parse_doc_id] at h
    split_ifs at h with hg
    · rw [Option.some.injEq, Prod.mk.injEq] at h
      obtain ⟨h1, h2, h3, h4⟩ := ascii_byte_split s 36 45 hg.2 (by omega)
      refine ⟨h.1.symm, h.2.symm, ?_, ?_⟩
      · rw [← h.1]
        exact h3
      · rw [← h.2]
        exact h4

/-- Witness for C10: the split facts hold at a concrete accepted non-UUID
input (73 `x` bytes around a `-` at byte 36). -/
theorem c10_parse_doc_id_witness :
    List.replicate 36 'x'
        = takeBytes 36 (List.replicate 36 'x' ++ '-' :: List.replicate 36 'x') ∧
    List.replicate 36 'x'
        = dropBytes 37 (List.replicate 36 'x' ++ '-' :: List.replicate 36 'x') ∧
    utf8Bytes (List.replicate 36 'x')
        = (utf8Bytes (List.replicate 36 'x' ++ '-' :: List.replicate 36 'x')).take 36 ∧
    utf8Bytes (List.replicate 36 'x')
        = (utf8Bytes (List.replicate 36 'x' ++ '-' :: List.replicate 36 'x')).drop 37 :=
  c10_parse_doc_id_spec.2.2.1 _ _ _ (by decide)

-- ---------------------------------------------------------------------------
-- Link resolution rules (C6)
-- ---------------------------------------------------------------------------

/-- Rule 1 as the spec states it: exact match on the literal path
`/{name}.md`. -/
def rule1_exact (name : Str) (fm : List (Str × Str)) : Option Str :=
  alookup ('/' :: (name ++ mdSuffix)) fm

/-- Rule 2 as the spec states it: case-insensitive match on the full path
with the leading `/` and the trailing `.md` stripped (stripped when
present). -/
def specStripped (path : Str) : Str :=
  let a := (stripPrefixChar '/' path).getD path
  (stripSuffix mdSuffix a).getD a

def rule2_spec (name : Str) (fm : List (Str × Str)) : Option Str :=
  (fm.find? (fun e => lowerStr (specStripped e.1) == lowerStr name)).map (·.2)

/-- Rule 3 as the spec states it: case-insensitive match on the path's
final segment (basename: trailing `.md` stripped when present). -/
def specBasename (path : Str) : Str :=
  let seg := lastSegment '/' path
  (stripSuffix mdSuffix seg).getD seg

def rule3_spec (name : Str) (fm : List (Str × Str)) : Option Str :=
  (fm.find? (fun e => lowerStr (specBasename e.1) == lowerStr name)).map (·.2)

/-- The three rules in strict priority order, as the claim states them. -/
def specResolve (name : Str) (fm : List (Str × Str)) : Option Str :=
  (rule1_exact name fm).orElse (fun _ =>
    (rule2_spec name fm).orElse (fun _ => rule3_spec name fm))

/-- Rule 2 as the code implements it: when the path lacks a leading `/` or
a trailing `.md`, the comparand falls back to the whole unstripped path. -/
def rule2_code (name : Str) (fm : List (Str × Str)) : Option Str :=
  (fm.find? (fun e => lowerStr (entryNameForFullMatch e.1) == lowerStr name)).map (·.2)

/-- Rule 3 as the code implements it: entries whose final segment does not
end in `.md` get the empty-string comparand and so never basename-match a
non-empty name. -/
def rule3_code (name : Str) (fm : List (Str × Str)) : Option Str :=
  (fm.find? (fun e => lowerStr (basenameForMatch e.1) == lowerStr name)).map (·.2)

/-- Counterexample to C6 as stated: for link name "/Data.txt" against
filemeta {"/Data.txt" → u1}, none of the claim's three rules matches (rule
2's comparand is "Data.txt" after stripping, rule 3's is "Data.txt" or
"Data", never "/Data.txt"), yet the code resolves it to u1 because its
rule-2 comparand falls back to the whole path "/Data.txt" when the
trailing-".md" strip fails. -/
theorem c6_resolution_counterexample :
    resolve_links_to_uuids ["/Data.txt".data] [("/Data.txt".data, "u1".data)]
        = ["u1".data] ∧
    resolve_one_link "/Data.txt".data [("/Data.txt".data, "u1".data)]
        = some "u1".data ∧
    specResolve "/Data.txt".data [("/Data.txt".data, "u1".data)] = none := by
  refine ⟨by decide, by decide, by decide⟩

/-- `resolve_links_to_uuids` on a single name returns the `Option.toList`
of the per-name resolution. -/
theorem resolve_links_singleton (name : Str) (fm : List (Str × Str)) :
    resolve_links_to_uuids [name] fm = (resolve_one_link name fm).toList := by
  rw [resolve_links_to_uuids, List.filterMap_cons]
  cases resolve_one_link name fm <;> rfl

/-- The per-name resolution is exactly the three code rules in strict
priority order. -/
theorem resolve_one_link_eq_rules (name : Str) (fm : List (Str × Str)) :
    resolve_one_link name fm
      = (rule1_exact name fm).orElse (fun _ =>
          (rule2_code name fm).orElse (fun _ => rule3_code name fm)) := by
  rw [resolve_one_link, rule1_exact, rule2_code, rule3_code]
  cases alookup ('/' :: (name ++ mdSuffix)) fm with
  | some u => rfl
  | none =>
    cases fm.find? (fun e => lowerStr (entryNameForFullMatch e.1) == lowerStr name) with
    | some e => rfl
    | none => rfl

/-- What one folder doc contributes during cross-folder resolution. -/
def folderMatch (name : Str) (f : YDoc) : Option Str :=
  match f.filemeta with
  | some fm => resolve_one_link name fm
  | none => none

theorem firstResolve_shift (name : Str) :
    ∀ (folders : List YDoc) (i : Nat),
      firstResolve name folders (i + 1)
        = (firstResolve name folders i).map (fun p => (p.1, p.2 + 1)) := by
  intro folders
  induction folders with
  | nil => intro i; rfl
  | cons f fs ih =>
    intro i
    rw [firstResolve, firstResolve]
    cases hm : f.filemeta with
    | none => exact ih (i + 1)
    | some fm =>
      dsimp only
      cases hr : resolve_links_to_uuids [name] fm with
      | nil => exact ih (i + 1)
      | cons u rest => rfl

theorem firstResolve_cons (name : Str) (f : YDoc) (fs : List YDoc) (i : Nat) :
    firstResolve name (f :: fs) i
      = match folderMatch name f with
        | some u => some (u, i)
        | none => firstResolve name fs (i + 1) := by
  rw [firstResolve, folderMatch]
  cases f.filemeta with
  | none => rfl
  | some fm =>
    dsimp only
    rw [resolve_links_singleton]
    cases resolve_one_link name fm <;> rfl

theorem firstResolve_eq_none_iff (name : Str) :
    ∀ folders : List YDoc,
      firstResolve name folders 0 = none ↔
        ∀ f ∈ folders, folderMatch name f = none := by
  intro folders
  induction folders with
  | nil => simp [firstResolve]
  | cons f fs ih =>
    rw [firstResolve_cons]
    cases hf : folderMatch name f with
    | some u => simp [hf]
    | none =>
      rw [firstResolve_shift]
      simp [Option.map_eq_none', ih, hf]

theorem firstResolve_eq_some_iff (name : Str) :
    ∀ (folders : List YDoc) (u : Str) (j : Nat),
      firstResolve name folders 0 = some (u, j) ↔
      (∃ f, folders[j]? = some f ∧ folderMatch name f = some u ∧
        ∀ k, k < j → ∀ g, folders[k]? = some g → folderMatch name g = none) := by
  intro folders
  induction folders with
  | nil =>
    intro u j
    simp [firstResolve]
  | cons f fs ih =>
    intro u j
    rw [firstResolve_cons]
    cases hf : folderMatch name f with
    | some u0 =>
      constructor
      · intro h
        rw [Option.some.injEq, Prod.mk.injEq] at h
        obtain ⟨h1, h2⟩ := h
        subst h1
        subst h2
        exact ⟨f, by rw [List.getElem?_cons_zero], hf,
          fun k hk g hg => absurd hk (Nat.not_lt_zero k)⟩
      · rintro ⟨g, hg, hmatch, hbefore⟩
        cases j with
        | zero =>
          rw [List.getElem?_cons_zero, Option.some.injEq] at hg
          rw [← hg, hf] at hmatch
          rw [Option.some.injEq] at hmatch
          rw [hmatch]
        | succ p =>
          have h0 := hbefore 0 (Nat.succ_pos p) f (by rw [List.getElem?_cons_zero])
          rw [hf] at h0
          exact absurd h0 (by simp)
    | none =>
      rw [firstResolve_shift]
      constructor
      · intro h
        rw [Option.map_eq_some'] at h
        obtain ⟨⟨u', p⟩, hp, heq⟩ := h
        rw [Prod.mk.injEq] at heq
        obtain ⟨h1, h2⟩ := heq
        subst h1
        subst h2
        obtain ⟨g, hg, hmatch, hbefore⟩ := (ih _ _).mp hp
        refine ⟨g, by rw [List.getElem?_cons_succ]; exact hg, hmatch, ?_⟩
        intro k hk g' hg'
        cases k with
        | zero =>
          rw [List.getElem?_cons_zero, Option.some.injEq] at hg'
          rw [← hg']
          exact hf
        | succ k' =>
          rw [List.getElem?_cons_succ] at hg'
          exact hbefore k' (by omega) g' hg'
      · rintro ⟨g, hg, hmatch, hbefore⟩
        cases j with
        | zero =>
          rw [List.getElem?_cons_zero, Option.some.injEq] at hg
          rw [← hg, hf] at hmatch
          exact absurd hmatch (by simp)
        | succ p =>
          rw [List.getElem?_cons_succ] at hg
          have hrec : firstResolve name fs 0 = some (u, p) :=
            (ih u p).mpr ⟨g, hg, hmatch, fun k hk g' hg' =>
              hbefore (k + 1) (by omega) g'
                (by rw [List.getElem?_cons_succ]; exact hg')⟩
          rw [hrec]
          rfl

/-- C6 (amended): the per-name resolution is the three rules in strict
priority order, where — unlike the claim as stated — rule 2 compares
against the whole unstripped path whenever the path lacks a leading `/`
or a trailing `.md`, and rule 3 never matches an entry whose final segment
lacks `.md`; across folders, the first folder (in order) producing any
match wins, every earlier folder contributing no match; an unresolvable
name yields no result and no error (resolution is total and the name is
skipped). -/
theorem c6_resolution_amended :
    (∀ name fm, resolve_one_link name fm
        = (rule1_exact name fm).orElse (fun _ =>
            (rule2_code name fm).orElse (fun _ => rule3_code name fm))) ∧
    (∀ name fm, resolve_links_to_uuids [name] fm
        = (resolve_one_link name fm).toList) ∧
    (∀ name (folders : List YDoc) u j,
      firstResolve name folders 0 = some (u, j) ↔
      (∃ f, folders[j]? = some f ∧ folderMatch name f = some u ∧
        ∀ k, k < j → ∀ g, folders[k]? = some g → folderMatch name g = none)) ∧
    (∀ name (folders : List YDoc),
      firstResolve name folders 0 = none ↔
        ∀ f ∈ folders, folderMatch name f = none) :=
  ⟨resolve_one_link_eq_rules, resolve_links_singleton,
    fun name folders => firstResolve_eq_some_iff name folders,
    fun name folders => firstResolve_eq_none_iff name folders⟩

-- ---------------------------------------------------------------------------
-- Diff-update algebra (C7: idempotence of index_content_into_folders)
-- ---------------------------------------------------------------------------

theorem addStep_preserves {source t t' : Str} (h : t ≠ t')
    (bl : List (Str × List Str)) :
    alookup t (addStep source bl t') = alookup t bl := by
  rw [addStep]
  split_ifs with h1
  · rfl
  · exact alookup_ainsert_ne (fun he => h he.symm) _ bl

theorem addStep_nodup (source : Str) (t : Str) {bl : List (Str × List Str)}
    (h : NodupKeys bl) : NodupKeys (addStep source bl t) := by
  rw [addStep]
  split_ifs with h1
  · exact h
  · exact nodupKeys_ainsert _ _ h

theorem addLoop_preserves {source t : Str} :
    ∀ {targets : List Str} (bl : List (Str × List Str)), t ∉ targets →
      alookup t (addSourceLoop source targets bl) = alookup t bl := by
  intro targets
  induction targets with
  | nil => intro bl _; rfl
  | cons t0 ts ih =>
    intro bl h
    rw [List.mem_cons] at h
    push_neg at h
    rw [addSourceLoop, List.foldl_cons]
    rw [show List.foldl (addStep source) (addStep source bl t0) ts
        = addSourceLoop source ts (addStep source bl t0) from rfl]
    rw [ih _ h.2, addStep_preserves h.1]

theorem addLoop_nodup (source : Str) :
    ∀ (targets : List Str) {bl : List (Str × List Str)}, NodupKeys bl →
      NodupKeys (addSourceLoop source targets bl) := by
  intro targets
  induction targets with
  | nil => intro bl h; exact h
  | cons t0 ts ih =>
    intro bl h
    rw [addSourceLoop, List.foldl_cons]
    exact ih (addStep_nodup source t0 h)

theorem addStep_mem (source t : Str) (bl : List (Str × List Str)) :
    source ∈ readBL (addStep source bl t) t := by
  rw [addStep]
  split_ifs with h1
  · exact h1
  · rw [readBL, alookup_ainsert_self]
    simp

theorem addLoop_mem {source : Str} :
    ∀ {targets : List Str} (bl : List (Str × List Str)), targets.Nodup →
      ∀ t ∈ targets, source ∈ readBL (addSourceLoop source targets bl) t := by
  intro targets
  induction targets with
  | nil => intro bl _ t ht; simp at ht
  | cons t0 ts ih =>
    intro bl hnd t ht
    rw [List.nodup_cons] at hnd
    rw [addSourceLoop, List.foldl_cons]
    rw [show List.foldl (addStep source) (addStep source bl t0) ts
        = addSourceLoop source ts (addStep source bl t0) from rfl]
    rcases List.mem_cons.mp ht with h2 | h2
    · subst h2
      rw [readBL, addLoop_preserves _ hnd.1]
      exact addStep_mem source t bl
    · exact ih _ hnd.2 t h2

theorem addLoop_id {source : Str} :
    ∀ {targets : List Str} (bl : List (Str × List Str)),
      (∀ t ∈ targets, source ∈ readBL bl t) →
      addSourceLoop source targets bl = bl := by
  intro targets
  induction targets with
  | nil => intro bl _; rfl
  | cons t0 ts ih =>
    intro bl h
    rw [addSourceLoop, List.foldl_cons, addStep,
      if_pos (h t0 (List.mem_cons_self _ _))]
    exact ih bl (fun t ht => h t (List.mem_cons_of_mem _ ht))

theorem remStep_preserves {source k k' : Str} {A : List Str} (h : k ≠ k')
    (bl : List (Str × List Str)) :
    alookup k (remStep source A bl k') = alookup k bl := by
  rw [remStep]
  split_ifs with h1 h2 h3
  · rfl
  · exact alookup_aerase_ne (fun he => h he.symm) bl
  · exact alookup_ainsert_ne (fun he => h he.symm) _ bl
  · rfl

theorem remStep_nodup (source k : Str) (A : List Str)
    {bl : List (Str × List Str)} (h : NodupKeys bl) :
    NodupKeys (remStep source A bl k) := by
  rw [remStep]
  split_ifs with h1 h2 h3
  · exact h
  · exact nodupKeys_aerase _ h
  · exact nodupKeys_ainsert _ _ h
  · exact h

theorem remStep_done {source k : Str} {A : List Str}
    {bl : List (Str × List Str)} (hA : k ∉ A) (hnd : NodupKeys bl) :
    source ∉ readBL (remStep source A bl k) k := by
  rw [remStep, if_neg hA]
  split_ifs with h1 h2
  · rw [readBL, alookup_aerase_self hnd]
    simp
  · rw [readBL, alookup_ainsert_self]
    simp
  · exact h1

theorem remFold_preserves {source k : Str} {A : List Str} :
    ∀ (ks : List Str) (bl : List (Str × List Str)), k ∉ ks →
      alookup k (ks.foldl (remStep source A) bl) = alookup k bl := by
  intro ks
  induction ks with
  | nil => intro bl _; rfl
  | cons k0 ks ih =>
    intro bl h
    rw [List.mem_cons] at h
    push_neg at h
    rw [List.foldl_cons, ih _ h.2, remStep_preserves h.1]

theorem remFold_nodup (source : Str) (A : List Str) :
    ∀ (ks : List Str) {bl : List (Str × List Str)}, NodupKeys bl →
      NodupKeys (ks.foldl (remStep source A) bl) := by
  intro ks
  induction ks with
  | nil => intro bl h; exact h
  | cons k0 ks ih =>
    intro bl h
    rw [List.foldl_cons]
    exact ih (remStep_nodup source k0 A h)

theorem remFold_processed {source : Str} {A : List Str} :
    ∀ (ks : List Str) (bl : List (Str × List Str)), ks.Nodup → NodupKeys bl →
      ∀ k ∈ ks, k ∉ A →
        source ∉ readBL (ks.foldl (remStep source A) bl) k := by
  intro ks
  induction ks with
  | nil => intro bl _ _ k hk; simp at hk
  | cons k0 ks ih =>
    intro bl hnd hbl k hk hA
    rw [List.nodup_cons] at hnd
    rw [List.foldl_cons]
    rcases List.mem_cons.mp hk with h2 | h2
    · subst h2
      rw [readBL, remFold_preserves ks _ hnd.1]
      exact remStep_done hA hbl
    · exact ih _ hnd.2 (remStep_nodup source k0 A hbl) k h2 hA

theorem remFold_absent {source : Str} {A : List Str} :
    ∀ (ks : List Str) (bl : List (Str × List Str)) (k : Str), k ∉ ks →
      alookup k bl = none →
      alookup k (ks.foldl (remStep source A) bl) = none := by
  intro ks bl k hk h
  rw [remFold_preserves ks bl hk]
  exact h

theorem remFold_skip {source k : Str} {A : List Str} (hk : k ∈ A) :
    ∀ (ks : List Str) (bl : List (Str × List Str)),
      alookup k (ks.foldl (remStep source A) bl) = alookup k bl := by
  intro ks
  induction ks with
  | nil => intro bl; rfl
  | cons k0 ks ih =>
    intro bl
    rw [List.foldl_cons, ih]
    by_cases h0 : k0 ∈ A
    · rw [remStep, if_pos h0]
    · refine remStep_preserves (fun he => h0 ?_) bl
      rw [← he]
      exact hk

theorem remFold_id {source : Str} {A : List Str}
    {bl : List (Str × List Str)}
    (h : ∀ k, k ∈ A ∨ source ∉ readBL bl k) :
    ∀ (ks : List Str), ks.foldl (remStep source A) bl = bl := by
  intro ks
  induction ks with
  | nil => rfl
  | cons k0 ks ih =>
    rw [List.foldl_cons]
    have hstep : remStep source A bl k0 = bl := by
      rcases h k0 with h1 | h1
      · rw [remStep, if_pos h1]
      · rw [remStep]
        by_cases h2 : k0 ∈ A
        · rw [if_pos h2]
        · rw [if_neg h2, if_neg h1]
    rw [hstep, ih]

theorem mem_dedupAux :
    ∀ (l seen : List Str) (x : Str), x ∈ dedupAux l seen ↔ x ∈ l ∧ x ∉ seen := by
  intro l
  induction l with
  | nil =>
    intro seen x
    simp [dedupAux]
  | cons y ys ih =>
    intro seen x
    rw [dedupAux]
    by_cases hy : y ∈ seen
    · rw [if_pos hy, ih, List.mem_cons]
      constructor
      · rintro ⟨h1, h2⟩
        exact ⟨Or.inr h1, h2⟩
      · rintro ⟨h1 | h1, h2⟩
        · exact absurd (h1 ▸ hy) h2
        · exact ⟨h1, h2⟩
    · rw [if_neg hy, List.mem_cons, List.mem_cons, ih, List.mem_cons]
      constructor
      · rintro (rfl | ⟨h1, h2⟩)
        · exact ⟨Or.inl rfl, hy⟩
        · push_neg at h2
          exact ⟨Or.inr h1, h2.2⟩
      · rintro ⟨rfl | h1, h2⟩
        · exact Or.inl rfl
        · by_cases hxy : x = y
          · exact Or.inl hxy
          · exact Or.inr ⟨h1, fun hmem => hmem.elim hxy h2⟩

theorem nodup_dedupAux : ∀ (l seen : List Str), (dedupAux l seen).Nodup := by
  intro l
  induction l with
  | nil => intro seen; simp [dedupAux]
  | cons y ys ih =>
    intro seen
    rw [dedupAux]
    by_cases hy : y ∈ seen
    · rw [if_pos hy]
      exact ih seen
    · rw [if_neg hy, List.nodup_cons]
      refine ⟨fun hmem => ?_, ih (y :: seen)⟩
      rw [mem_dedupAux] at hmem
      exact hmem.2 (List.mem_cons_self _ _)

theorem dedupStr_nodup (l : List Str) : (dedupStr l).Nodup := nodup_dedupAux l []

theorem mem_dedupStr {l : List Str} {x : Str} : x ∈ dedupStr l ↔ x ∈ l := by
  rw [dedupStr, mem_dedupAux]
  simp

/-- The diff-update of one folder's backlinks map is idempotent: once the
source uuid has been added under every newly-resolved target and removed
from every other key, a second identical pass changes nothing. -/
theorem diffUpdate_idem (source : Str) (T A : List Str)
    (bl : List (Str × List Str)) (hT : T.Nodup) (hTA : ∀ t ∈ T, t ∈ A)
    (hnd : NodupKeys bl) :
    removeStaleLoop source A (addSourceLoop source T
      (removeStaleLoop source A (addSourceLoop source T bl)))
    = removeStaleLoop source A (addSourceLoop source T bl) := by
  have hnd1 : NodupKeys (addSourceLoop source T bl) := addLoop_nodup source T hnd
  have hnd2 : NodupKeys (removeStaleLoop source A (addSourceLoop source T bl)) :=
    remFold_nodup source A _ hnd1
  have hA1 : ∀ t ∈ T,
      source ∈ readBL (removeStaleLoop source A (addSourceLoop source T bl)) t := by
    intro t ht
    rw [readBL, removeStaleLoop, remFold_skip (hTA t ht)]
    exact addLoop_mem bl hT t ht
  rw [addLoop_id _ hA1, removeStaleLoop]
  apply remFold_id
  intro k
  by_cases hk : k ∈ A
  · exact Or.inl hk
  · right
    by_cases hmem : k ∈ akeys (addSourceLoop source T bl)
    · rw [show removeStaleLoop source A (addSourceLoop source T bl)
          = (akeys (addSourceLoop source T bl)).foldl (remStep source A)
              (addSourceLoop source T bl) from rfl]
      exact remFold_processed _ _ hnd1 hnd1 k hmem hk
    · rw [readBL, removeStaleLoop,
        remFold_absent _ _ k hmem (alookup_eq_none_of_not_mem hmem)]
      simp

theorem diffUpdateFolder_idem (s : Str) (R : List (Str × Nat)) (fi : Nat)
    {f : YDoc} (h : NodupKeys f.backlinks) :
    diffUpdateFolder s R fi (diffUpdateFolder s R fi f)
      = diffUpdateFolder s R fi f := by
  have hTA : ∀ t ∈ dedupStr (R.filterMap
      (fun p => if p.2 = fi then some p.1 else none)), t ∈ R.map (·.1) := by
    intro t ht
    rw [mem_dedupStr, List.mem_filterMap] at ht
    obtain ⟨p, hp, hpe⟩ := ht
    by_cases hfi : p.2 = fi
    · rw [if_pos hfi, Option.some.injEq] at hpe
      rw [← hpe]
      exact List.mem_map_of_mem (·.1) hp
    · rw [if_neg hfi] at hpe
      simp at hpe
  simp only [diffUpdateFolder]
  rw [diffUpdate_idem s _ _ _ (dedupStr_nodup _) hTA h]

theorem mapWithIndex_diffUpdate_filemeta (s : Str) (R : List (Str × Nat)) :
    ∀ (F : List YDoc) (i : Nat),
      (mapWithIndex (diffUpdateFolder s R) i F).map (fun f => f.filemeta)
        = F.map (fun f => f.filemeta) := by
  intro F
  induction F with
  | nil => intro i; rfl
  | cons f fs ih =>
    intro i
    rw [mapWithIndex, List.map_cons, List.map_cons, ih]
    rfl

theorem mapWithIndex_diffUpdate_idem (s : Str) (R : List (Str × Nat)) :
    ∀ (F : List YDoc) (i : Nat), (∀ f ∈ F, NodupKeys f.backlinks) →
      mapWithIndex (diffUpdateFolder s R) i
          (mapWithIndex (diffUpdateFolder s R) i F)
        = mapWithIndex (diffUpdateFolder s R) i F := by
  intro F
  induction F with
  | nil => intro i _; rfl
  | cons f fs ih =>
    intro i h
    rw [mapWithIndex, mapWithIndex,
      diffUpdateFolder_idem s R i (h f (List.mem_cons_self _ _)),
      ih (i + 1) (fun f' hf' => h f' (List.mem_cons_of_mem _ hf'))]

theorem firstResolve_congr (name : Str) :
    ∀ (fs fs' : List YDoc),
      fs.map (fun f => f.filemeta) = fs'.map (fun f => f.filemeta) →
      ∀ i, firstResolve name fs i = firstResolve name fs' i := by
  intro fs
  induction fs with
  | nil =>
    intro fs' h i
    cases fs' with
    | nil => rfl
    | cons g gs => simp at h
  | cons f fs ih =>
    intro fs' h i
    cases fs' with
    | nil => simp at h
    | cons g gs =>
      rw [List.map_cons, List.map_cons, List.cons.injEq] at h
      rw [firstResolve, firstResolve, h.1]
      cases g.filemeta with
      | none => exact ih gs h.2 (i + 1)
      | some fm =>
        dsimp only
        cases resolve_links_to_uuids [name] fm with
        | nil => exact ih gs h.2 (i + 1)
        | cons u rest => rfl

/-- C7: running `index_content_into_folders` twice consecutively with no
intervening change to the content document or to the folders' filemeta
leaves every folder in exactly the state one run produces, for every
well-formed store (each folder's backlinks map binds each target uuid at
most once). -/
theorem c7_index_idempotent (source : Str) (content : YDoc)
    (folders : List YDoc) (h : ∀ f ∈ folders, NodupKeys f.backlinks) :
    index_content_into_folders source content
        (index_content_into_folders source content folders)
      = index_content_into_folders source content folders := by
  cases hc : content.contents with
  | none => simp only [index_content_into_folders, hc]
  | some md =>
    have hrun1 : index_content_into_folders source content folders
        = mapWithIndex (diffUpdateFolder source
            ((extract_wikilinks md).filterMap
              (fun n => firstResolve n folders 0))) 0 folders := by
      simp only [index_content_into_folders, hc]
    have hfm : (index_content_into_folders source content folders).map
          (fun f => f.filemeta)
        = folders.map (fun f => f.filemeta) := by
      rw [hrun1]
      exact mapWithIndex_diffUpdate_filemeta _ _ folders 0
    have hfun : (fun n => firstResolve n
          (index_content_into_folders source content folders) 0)
        = (fun n => firstResolve n folders 0) :=
      funext (fun n => firstResolve_congr n _ _ hfm 0)
    have hrun2 : index_content_into_folders source content
          (index_content_into_folders source content folders)
        = mapWithIndex (diffUpdateFolder source
            ((extract_wikilinks md).filterMap
              (fun n => firstResolve n
                (index_content_into_folders source content folders) 0))) 0
            (index_content_into_folders source content folders) := by
      simp only [index_content_into_folders, hc]
    rw [hrun2, hfun]
    conv_lhs => rw [hrun1]
    conv_rhs => rw [hrun1]
    rw [← hrun1]
    rw [hrun1]
    exact mapWithIndex_diffUpdate_idem source _ folders 0 h

/-- Witness for C7: idempotence at the worked example of C1's scenario. -/
theorem c7_index_idempotent_witness :
    index_content_into_folders "uuid-notes".data
        { contents := some "See [[Ideas]] for more".data,
          filemeta := none, backlinks := [] }
        (index_content_into_folders "uuid-notes".data
          { contents := some "See [[Ideas]] for more".data,
            filemeta := none, backlinks := [] }
          [{ contents := none,
             filemeta := some [("/Notes.md".data, "uuid-notes".data),
                               ("/Ideas.md".data, "uuid-ideas".data)],
             backlinks := [] }])
      = index_content_into_folders "uuid-notes".data
          { contents := some "See [[Ideas]] for more".data,
            filemeta := none, backlinks := [] }
          [{ contents := none,
             filemeta := some [("/Notes.md".data, "uuid-notes".data),
                               ("/Ideas.md".data, "uuid-ideas".data)],
             backlinks := [] }] :=
  c7_index_idempotent _ _ _ (fun f hf => by
    rw [List.mem_singleton] at hf
    subst hf
    exact List.nodup_nil)

-- ---------------------------------------------------------------------------
-- index_document failure semantics (C8)
-- ---------------------------------------------------------------------------

def relayA : Str := "aaaaaaaa-aaaa-aaaa-aaaa-aaaaaaaaaaaa".data

def folderIdA : Str := relayA ++ '-' :: "bbbbbbbb-bbbb-bbbb-bbbb-bbbbbbbbbbbb".data

def missingIdA : Str := relayA ++ '-' :: "cccccccc-cccc-cccc-cccc-cccccccccccc".data

def storeA : DocStore :=
  [(folderIdA,
    { contents := none, filemeta := some [("/A.md".data, "u1".data)],
      backlinks := [] })]

/-- Counterexample to C8 as stated: with one folder doc loaded and a
well-formed doc_id that is simply not present in the store,
`index_document` returns an error ("Content doc not found") even though the
doc_id format is valid and folder docs are loaded — a third failure case
the claim's "exactly when" excludes. -/
theorem c8_index_document_counterexample :
    (parse_doc_id missingIdA).isSome = true ∧
    find_all_folder_docs storeA ≠ [] ∧
    index_document missingIdA storeA
      = (some IndexError.contentDocNotFound, storeA) := by
  refine ⟨by decide, by decide, by decide⟩

/-- C8 (amended): `index_document` fails exactly when the doc_id has an
invalid format, or no folder documents are currently loaded, or the doc_id
is not present in the loaded-document store; every failure leaves the store
(all folder backlinks and all content documents) unchanged; and
`reindex_all_backlinks` processes every loaded document regardless of
individual failures (indexed + skipped counters always sum to the store
size). -/
theorem c8_index_document_amended :
    (∀ doc_id docs, (index_document doc_id docs).1 ≠ none ↔
      (parse_doc_id doc_id = none ∨ find_all_folder_docs docs = [] ∨
        alookup doc_id docs = none)) ∧
    (∀ doc_id docs, (index_document doc_id docs).1 ≠ none →
      (index_document doc_id docs).2 = docs) ∧
    (∀ cache docs, (reindex_all_backlinks cache docs).2.2.1
        + (reindex_all_backlinks cache docs).2.2.2 = docs.length) := by
  have hcount : ∀ (ks : List Str) (acc : DocStore × Nat × Nat),
      ((ks.foldl (fun acc doc_id =>
          match index_document doc_id acc.1 with
          | (none, ds) => (ds, acc.2.1 + 1, acc.2.2)
          | (some _, ds) => (ds, acc.2.1, acc.2.2 + 1)) acc).2.1
        + (ks.foldl (fun acc doc_id =>
          match index_document doc_id acc.1 with
          | (none, ds) => (ds, acc.2.1 + 1, acc.2.2)
          | (some _, ds) => (ds, acc.2.1, acc.2.2 + 1)) acc).2.2)
        = acc.2.1 + acc.2.2 + ks.length := by
    intro ks
    induction ks with
    | nil => intro acc; simp
    | cons k ks ih =>
      intro acc
      rw [List.foldl_cons]
      cases hi : index_document k acc.1 with
      | mk e ds =>
        cases e with
        | none =>
          dsimp only
          rw [ih]
          simp
          omega
        | some err =>
          dsimp only
          rw [ih]
          simp
          omega
  refine ⟨fun doc_id docs => ?_, fun doc_id docs => ?_, fun cache docs => ?_⟩
  · cases hp : parse_doc_id doc_id with
    | none =>
      simp only [index_document, hp]
      simp [hp]
    | some pr =>
      obtain ⟨r, u⟩ := pr
      simp only [index_document, hp]
      by_cases hf : find_all_folder_docs docs = []
      · rw [if_pos hf]
        simp [hp, hf]
      · rw [if_neg hf]
        cases ha : alookup doc_id docs with
        | none => simp [hp, hf, ha]
        | some d => simp [hp, hf, ha]
  · intro herr
    revert herr
    cases hp : parse_doc_id doc_id with
    | none =>
      intro _
      simp only [index_document, hp]
    | some pr =>
      obtain ⟨r, u⟩ := pr
      simp only [index_document, hp]
      by_cases hf : find_all_folder_docs docs = []
      · rw [if_pos hf]
        intro _
        rfl
      · rw [if_neg hf]
        cases ha : alookup doc_id docs with
        | none =>
          intro _
          rfl
        | some d =>
          intro herr
          exact absurd rfl herr
  · rw [reindex_all_backlinks]
    dsimp only
    rw [hcount]
    simp [akeys]

/-- Witness for C8 (amended): at the concrete store, the failing lookup is
reported and the store is returned unchanged. -/
theorem c8_index_document_amended_witness :
    (index_document missingIdA storeA).1 ≠ none ∧
    (index_document missingIdA storeA).2 = storeA :=
  ⟨(c8_index_document_amended.1 missingIdA storeA).mpr
      (Or.inr (Or.inr (by decide))),
    c8_index_document_amended.2.1 missingIdA storeA
      ((c8_index_document_amended.1 missingIdA storeA).mpr
        (Or.inr (Or.inr (by decide))))⟩

-- ---------------------------------------------------------------------------
-- DocumentResolver invariants (C3, C9)
-- ---------------------------------------------------------------------------

/-- The inverse-consistency invariant of the claim: every registered uuid
round-trips through the two maps back to itself. -/
def Good (r : DocumentResolver) : Prop :=
  ∀ u p, alookup u r.uuid_to_path = some p →
    ∃ i, alookup p r.path_to_doc = some i ∧ i.uuid = u

/-- Every binding of the reverse map is one of the pairs in `E`
(path, uuid). -/
def Track (r : DocumentResolver) (E : List (Str × Str)) : Prop :=
  ∀ u p, alookup u r.uuid_to_path = some p → (p, u) ∈ E

/-- No display path is derived for two different uuids. -/
def PathFunctional (l : List (Str × Str)) : Prop :=
  ∀ x ∈ l, ∀ y ∈ l, x.1 = y.1 → x.2 = y.2

theorem pathFunctional_mono {l l' : List (Str × Str)}
    (hsub : ∀ x ∈ l, x ∈ l') (h : PathFunctional l') : PathFunctional l :=
  fun x hx y hy hxy => h x (hsub x hx) y (hsub y hy) hxy

/-- The (display path, uuid) pairs one folder's filemeta derives. -/
def folderDerived (fid : Str) (idx : Nat) (fm : List (Str × Str)) :
    List (Str × Str) :=
  fm.map (fun e => ((derivedEntry fid idx e.1 e.2).1, e.2))

def folderDerivedDoc (fid : Str) (idx : Nat) (doc : YDoc) :
    List (Str × Str) :=
  match doc.filemeta with
  | some fm => folderDerived fid idx fm
  | none => []

/-- The (display path, uuid) pairs one rebuild step derives. -/
def storeDerivedAt (docs : DocStore) (p : Nat × Str) : List (Str × Str) :=
  match alookup p.2 docs with
  | some d => folderDerivedDoc p.2 p.1 d
  | none => []

/-- All (display path, uuid) pairs a full `rebuild` derives from a store. -/
def storeDerived (docs : DocStore) : List (Str × Str) :=
  let ids := sortStrs (find_all_folder_docs docs)
  (((List.range ids.length).zip ids).map (storeDerivedAt docs)).flatten

/-- The uuids recorded in the forward-map entries `remove_folder_entries`
removes. -/
def removedUuidsOf (r : DocumentResolver) (fid : Str) : List Str :=
  (r.path_to_doc.filter (fun e => e.2.folder_doc_id = fid)).map (·.2.uuid)

-- Removal-phase lemmas ------------------------------------------------------

theorem removeEntryStep_p2d (r : DocumentResolver) (p : Str) :
    (removeEntryStep r p).path_to_doc
      = match alookup p r.path_to_doc with
        | some _ => aerase p r.path_to_doc
        | none => r.path_to_doc := by
  rw [removeEntryStep]
  cases alookup p r.path_to_doc <;> rfl

theorem removeEntryStep_u2p (r : DocumentResolver) (p : Str) :
    (removeEntryStep r p).uuid_to_path
      = match alookup p r.path_to_doc with
        | some info => aerase info.uuid r.uuid_to_path
        | none => r.uuid_to_path := by
  rw [removeEntryStep]
  cases alookup p r.path_to_doc <;> rfl

theorem removeStep_good {r : DocumentResolver} (p : Str) (hg : Good r)
    (hnd : NodupKeys r.uuid_to_path) :
    Good (removeEntryStep r p) ∧
      NodupKeys (removeEntryStep r p).uuid_to_path := by
  constructor
  · intro u p' hp'
    rw [removeEntryStep_u2p] at hp'
    rw [removeEntryStep_p2d]
    cases hl : alookup p r.path_to_doc with
    | none =>
      rw [hl] at hp'
      exact hg u p' hp'
    | some info =>
      rw [hl] at hp'
      dsimp only at hp' ⊢
      by_cases hu : u = info.uuid
      · rw [hu, alookup_aerase_self hnd] at hp'
        exact absurd hp' (by simp)
      · rw [alookup_aerase_ne (fun he => hu he.symm)] at hp'
        obtain ⟨i, hi, hiu⟩ := hg u p' hp'
        by_cases hpp : p' = p
        · exfalso
          rw [hpp, hl, Option.some.injEq] at hi
          rw [← hi] at hiu
          exact hu hiu.symm
        · refine ⟨i, ?_, hiu⟩
          rw [alookup_aerase_ne (fun he => hpp he.symm)]
          exact hi
  · rw [removeEntryStep_u2p]
    cases alookup p r.path_to_doc with
    | none => exact hnd
    | some info => exact nodupKeys_aerase _ hnd

theorem removeStep_track {r : DocumentResolver} {E : List (Str × Str)}
    (p : Str) (ht : Track r E) (hnd : NodupKeys r.uuid_to_path) :
    Track (removeEntryStep r p) E := by
  intro u p' hp'
  rw [removeEntryStep_u2p] at hp'
  cases hl : alookup p r.path_to_doc with
  | none =>
    rw [hl] at hp'
    exact ht u p' hp'
  | some info =>
    rw [hl] at hp'
    dsimp only at hp'
    by_cases hu : u = info.uuid
    · rw [hu, alookup_aerase_self hnd] at hp'
      exact absurd hp' (by simp)
    · rw [alookup_aerase_ne (fun he => hu he.symm)] at hp'
      exact ht u p' hp'

theorem removeFold_inv :
    ∀ (ps : List Str) (r : DocumentResolver) (E : List (Str × Str)),
      Good r → Track r E → NodupKeys r.uuid_to_path →
      Good (ps.foldl removeEntryStep r) ∧
      Track (ps.foldl removeEntryStep r) E ∧
      NodupKeys (ps.foldl removeEntryStep r).uuid_to_path := by
  intro ps
  induction ps with
  | nil => intro r E hg ht hnd; exact ⟨hg, ht, hnd⟩
  | cons p ps ih =>
    intro r E hg ht hnd
    rw [List.foldl_cons]
    obtain ⟨hg1, hnd1⟩ := removeStep_good p hg hnd
    exact ih _ E hg1 (removeStep_track p ht hnd) hnd1

-- Insert-phase lemmas -------------------------------------------------------

theorem insertEntryStep_p2d (fid : Str) (idx : Nat) (r : DocumentResolver)
    (e : Str × Str) :
    (insertEntryStep fid idx r e).path_to_doc
      = ainsert (derivedEntry fid idx e.1 e.2).1
          (derivedEntry fid idx e.1 e.2).2 r.path_to_doc := rfl

theorem insertEntryStep_u2p (fid : Str) (idx : Nat) (r : DocumentResolver)
    (e : Str × Str) :
    (insertEntryStep fid idx r e).uuid_to_path
      = ainsert e.2 (derivedEntry fid idx e.1 e.2).1 r.uuid_to_path := rfl

theorem derivedEntry_uuid (fid : Str) (idx : Nat) (p u : Str) :
    (derivedEntry fid idx p u).2.uuid = u := rfl

theorem insertEntries_good :
    ∀ (fm : List (Str × Str)) (r : DocumentResolver) (E : List (Str × Str))
      (fid : Str) (idx : Nat),
      Good r → Track r E →
      PathFunctional (E ++ folderDerived fid idx fm) →
      Good (insertFolderEntries fid idx fm r) ∧
      Track (insertFolderEntries fid idx fm r)
        (E ++ folderDerived fid idx fm) := by
  intro fm
  induction fm with
  | nil =>
    intro r E fid idx hg ht hpf
    refine ⟨hg, ?_⟩
    rw [show folderDerived fid idx [] = [] from rfl, List.append_nil]
    exact ht
  | cons e fm' ih =>
    intro r E fid idx hg ht hpf
    have hcons : folderDerived fid idx (e :: fm')
        = ((derivedEntry fid idx e.1 e.2).1, e.2) :: folderDerived fid idx fm' :=
      rfl
    have hg1 : Good (insertEntryStep fid idx r e) := by
      intro u p hp
      rw [insertEntryStep_u2p] at hp
      rw [insertEntryStep_p2d]
      by_cases hu : u = e.2
      · subst hu
        rw [alookup_ainsert_self, Option.some.injEq] at hp
        rw [← hp, alookup_ainsert_self]
        exact ⟨_, rfl, derivedEntry_uuid fid idx e.1 e.2⟩
      · rw [alookup_ainsert_ne (fun he => hu he.symm)] at hp
        obtain ⟨i, hi, hiu⟩ := hg u p hp
        by_cases hpd : p = (derivedEntry fid idx e.1 e.2).1
        · exfalso
          apply hu
          have h1 : (p, u) ∈ E ++ folderDerived fid idx (e :: fm') :=
            List.mem_append_left _ (ht u p hp)
          have h2 : ((derivedEntry fid idx e.1 e.2).1, e.2)
              ∈ E ++ folderDerived fid idx (e :: fm') := by
            rw [hcons]
            exact List.mem_append_right _ (List.mem_cons_self _ _)
          exact hpf (p, u) h1 ((derivedEntry fid idx e.1 e.2).1, e.2) h2 hpd
        · refine ⟨i, ?_, hiu⟩
          rw [alookup_ainsert_ne (fun he => hpd he.symm)]
          exact hi
    have ht1 : Track (insertEntryStep fid idx r e)
        (E ++ [((derivedEntry fid idx e.1 e.2).1, e.2)]) := by
      intro u p hp
      rw [insertEntryStep_u2p] at hp
      by_cases hu : u = e.2
      · subst hu
        rw [alookup_ainsert_self, Option.some.injEq] at hp
        rw [← hp]
        exact List.mem_append_right _ (List.mem_singleton_self _)
      · rw [alookup_ainsert_ne (fun he => hu he.symm)] at hp
        exact List.mem_append_left _ (ht u p hp)
    have hassoc : (E ++ [((derivedEntry fid idx e.1 e.2).1, e.2)])
          ++ folderDerived fid idx fm'
        = E ++ folderDerived fid idx (e :: fm') := by
      rw [List.append_assoc, hcons]
      rfl
    have hpf1 : PathFunctional
        ((E ++ [((derivedEntry fid idx e.1 e.2).1, e.2)])
          ++ folderDerived fid idx fm') := by
      rw [hassoc]
      exact hpf
    obtain ⟨hg2, ht2⟩ := ih (insertEntryStep fid idx r e)
      (E ++ [((derivedEntry fid idx e.1 e.2).1, e.2)]) fid idx hg1 ht1 hpf1
    constructor
    · exact hg2
    · rw [← hassoc]
      exact ht2

theorem insertEntries_nodup_u2p :
    ∀ (fm : List (Str × Str)) (r : DocumentResolver) (fid : Str) (idx : Nat),
      NodupKeys r.uuid_to_path →
      NodupKeys (insertFolderEntries fid idx fm r).uuid_to_path := by
  intro fm
  induction fm with
  | nil => intro r fid idx h; exact h
  | cons e fm' ih =>
    intro r fid idx h
    rw [insertFolderEntries, List.foldl_cons]
    exact ih _ fid idx (by rw [insertEntryStep_u2p]; exact nodupKeys_ainsert _ _ h)

theorem insertEntries_p2d_frame :
    ∀ (fm : List (Str × Str)) (r : DocumentResolver) (fid : Str) (idx : Nat)
      (p : Str), p ∉ (folderDerived fid idx fm).map (·.1) →
      alookup p (insertFolderEntries fid idx fm r).path_to_doc
        = alookup p r.path_to_doc := by
  intro fm
  induction fm with
  | nil => intro r fid idx p _; rfl
  | cons e fm' ih =>
    intro r fid idx p hp
    rw [show (folderDerived fid idx (e :: fm')).map (·.1)
        = (derivedEntry fid idx e.1 e.2).1 :: (folderDerived fid idx fm').map (·.1)
        from rfl, List.mem_cons] at hp
    push_neg at hp
    rw [insertFolderEntries, List.foldl_cons]
    rw [show List.foldl (insertEntryStep fid idx) (insertEntryStep fid idx r e) fm'
        = insertFolderEntries fid idx fm' (insertEntryStep fid idx r e) from rfl]
    rw [ih _ fid idx p hp.2, insertEntryStep_p2d,
      alookup_ainsert_ne (fun he => hp.1 he.symm)]

theorem insertEntries_u2p_frame :
    ∀ (fm : List (Str × Str)) (r : DocumentResolver) (fid : Str) (idx : Nat)
      (u : Str), u ∉ fm.map (·.2) →
      alookup u (insertFolderEntries fid idx fm r).uuid_to_path
        = alookup u r.uuid_to_path := by
  intro fm
  induction fm with
  | nil => intro r fid idx u _; rfl
  | cons e fm' ih =>
    intro r fid idx u hu
    rw [show (e :: fm').map (·.2) = e.2 :: fm'.map (·.2) from rfl,
      List.mem_cons] at hu
    push_neg at hu
    rw [insertFolderEntries, List.foldl_cons]
    rw [show List.foldl (insertEntryStep fid idx) (insertEntryStep fid idx r e) fm'
        = insertFolderEntries fid idx fm' (insertEntryStep fid idx r e) from rfl]
    rw [ih _ fid idx u hu.2, insertEntryStep_u2p,
      alookup_ainsert_ne (fun he => hu.1 he.symm)]

theorem insertEntries_p2d_lookup :
    ∀ (fm : List (Str × Str)) (r : DocumentResolver) (fid : Str) (idx : Nat),
      ((folderDerived fid idx fm).map (·.1)).Nodup →
      ∀ e ∈ fm,
        alookup (derivedEntry fid idx e.1 e.2).1
            (insertFolderEntries fid idx fm r).path_to_doc
          = some (derivedEntry fid idx e.1 e.2).2 := by
  intro fm
  induction fm with
  | nil => intro r fid idx _ e he; simp at he
  | cons e0 fm' ih =>
    intro r fid idx hnd e he
    rw [show (folderDerived fid idx (e0 :: fm')).map (·.1)
        = (derivedEntry fid idx e0.1 e0.2).1
          :: (folderDerived fid idx fm').map (·.1) from rfl,
      List.nodup_cons] at hnd
    rw [insertFolderEntries, List.foldl_cons]
    rw [show List.foldl (insertEntryStep fid idx) (insertEntryStep fid idx r e0) fm'
        = insertFolderEntries fid idx fm' (insertEntryStep fid idx r e0) from rfl]
    rcases List.mem_cons.mp he with h2 | h2
    · subst h2
      rw [insertEntries_p2d_frame fm' _ fid idx _ hnd.1,
        insertEntryStep_p2d, alookup_ainsert_self]
    · exact ih _ fid idx hnd.2 e h2

theorem removeFold_p2d_frame :
    ∀ (ps : List Str) (r : DocumentResolver) (p : Str), p ∉ ps →
      alookup p ((ps.foldl removeEntryStep r).path_to_doc)
        = alookup p r.path_to_doc := by
  intro ps
  induction ps with
  | nil => intro r p _; rfl
  | cons p0 ps ih =>
    intro r p hp
    rw [List.mem_cons] at hp
    push_neg at hp
    rw [List.foldl_cons, ih _ p hp.2, removeEntryStep_p2d]
    cases alookup p0 r.path_to_doc with
    | none => rfl
    | some info => exact alookup_aerase_ne (fun he => hp.1 he.symm) _

theorem removeFold_nodup_p2d :
    ∀ (ps : List Str) (r : DocumentResolver), NodupKeys r.path_to_doc →
      NodupKeys ((ps.foldl removeEntryStep r).path_to_doc) := by
  intro ps
  induction ps with
  | nil => intro r h; exact h
  | cons p0 ps ih =>
    intro r h
    rw [List.foldl_cons]
    refine ih _ ?_
    rw [removeEntryStep_p2d]
    cases alookup p0 r.path_to_doc with
    | none => exact h
    | some info => exact nodupKeys_aerase _ h

theorem removeFold_p2d_removed :
    ∀ (ps : List Str) (r : DocumentResolver) (p : Str), ps.Nodup →
      NodupKeys r.path_to_doc → p ∈ ps →
      alookup p ((ps.foldl removeEntryStep r).path_to_doc) = none := by
  intro ps
  induction ps with
  | nil => intro r p _ _ hp; simp at hp
  | cons p0 ps ih =>
    intro r p hnd hkeys hp
    rw [List.nodup_cons] at hnd
    rw [List.foldl_cons]
    rcases List.mem_cons.mp hp with h2 | h2
    · subst h2
      rw [removeFold_p2d_frame ps _ p hnd.1, removeEntryStep_p2d]
      cases hl : alookup p r.path_to_doc with
      | none => exact hl
      | some info => exact alookup_aerase_self hkeys
    · refine ih _ p hnd.2 ?_ h2
      rw [removeEntryStep_p2d]
      cases alookup p0 r.path_to_doc with
      | none => exact hkeys
      | some info => exact nodupKeys_aerase _ hkeys

theorem removeFold_u2p_frame :
    ∀ (ps : List Str) (r : DocumentResolver) (u : Str), ps.Nodup →
      (∀ p' ∈ ps, ∀ info, alookup p' r.path_to_doc = some info →
        info.uuid ≠ u) →
      alookup u ((ps.foldl removeEntryStep r).uuid_to_path)
        = alookup u r.uuid_to_path := by
  intro ps
  induction ps with
  | nil => intro r u _ _; rfl
  | cons p0 ps ih =>
    intro r u hnd hcond
    rw [List.nodup_cons] at hnd
    rw [List.foldl_cons]
    have hstep_p2d : ∀ p', p' ≠ p0 →
        alookup p' (removeEntryStep r p0).path_to_doc
          = alookup p' r.path_to_doc := by
      intro p' hne
      rw [removeEntryStep_p2d]
      cases alookup p0 r.path_to_doc with
      | none => rfl
      | some info => exact alookup_aerase_ne (fun he => hne he.symm) _
    have hcond' : ∀ p' ∈ ps, ∀ info,
        alookup p' (removeEntryStep r p0).path_to_doc = some info →
        info.uuid ≠ u := by
      intro p' hp' info hinfo
      rw [hstep_p2d p' (fun he => hnd.1 (he ▸ hp'))] at hinfo
      exact hcond p' (List.mem_cons_of_mem _ hp') info hinfo
    rw [ih _ u hnd.2 hcond', removeEntryStep_u2p]
    cases hl : alookup p0 r.path_to_doc with
    | none => rfl
    | some info =>
      exact alookup_aerase_ne
        (hcond p0 (List.mem_cons_self _ _) info hl) _

theorem removedPathsOf_nodup {r : DocumentResolver} (fid : Str)
    (h : NodupKeys r.path_to_doc) : (removedPathsOf r fid).Nodup := by
  refine List.Nodup.sublist ?_ h
  exact List.Sublist.map _ (List.filter_sublist _)

theorem track_self (r : DocumentResolver) :
    Track r (r.uuid_to_path.map (fun e => (e.2, e.1))) := by
  intro u p hp
  have := mem_of_alookup_eq_some hp
  exact List.mem_map.mpr ⟨(u, p), this, rfl⟩

theorem rebuildStoreStep_some {docs : DocStore} {p0 : Nat × Str} {d : YDoc}
    (hl : alookup p0.2 docs = some d) (r : DocumentResolver) :
    rebuildStoreStep docs r p0 = rebuild_from_folder_doc r p0.2 p0.1 d := by
  rw [rebuildStoreStep, hl]

theorem rebuildStoreStep_none {docs : DocStore} {p0 : Nat × Str}
    (hl : alookup p0.2 docs = none) (r : DocumentResolver) :
    rebuildStoreStep docs r p0 = r := by
  rw [rebuildStoreStep, hl]

theorem storeDerivedAt_some {docs : DocStore} {p0 : Nat × Str} {d : YDoc}
    (hl : alookup p0.2 docs = some d) :
    storeDerivedAt docs p0 = folderDerivedDoc p0.2 p0.1 d := by
  rw [storeDerivedAt, hl]

theorem storeDerivedAt_none {docs : DocStore} {p0 : Nat × Str}
    (hl : alookup p0.2 docs = none) : storeDerivedAt docs p0 = [] := by
  rw [storeDerivedAt, hl]

theorem rebuild_from_folder_doc_some {d : YDoc} {fm : List (Str × Str)}
    (hm : d.filemeta = some fm) (r : DocumentResolver) (fid : Str)
    (idx : Nat) :
    rebuild_from_folder_doc r fid idx d = insertFolderEntries fid idx fm r := by
  rw [rebuild_from_folder_doc, hm]

theorem rebuild_from_folder_doc_none {d : YDoc} (hm : d.filemeta = none)
    (r : DocumentResolver) (fid : Str) (idx : Nat) :
    rebuild_from_folder_doc r fid idx d = r := by
  rw [rebuild_from_folder_doc, hm]

theorem folderDerivedDoc_some {d : YDoc} {fm : List (Str × Str)}
    (hm : d.filemeta = some fm) (fid : Str) (idx : Nat) :
    folderDerivedDoc fid idx d = folderDerived fid idx fm := by
  rw [folderDerivedDoc, hm]

theorem folderDerivedDoc_none {d : YDoc} (hm : d.filemeta = none)
    (fid : Str) (idx : Nat) : folderDerivedDoc fid idx d = [] := by
  rw [folderDerivedDoc, hm]

theorem rebuildFold_inv :
    ∀ (pairs : List (Nat × Str)) (docs : DocStore) (r : DocumentResolver)
      (E : List (Str × Str)),
      Good r → Track r E → NodupKeys r.uuid_to_path →
      PathFunctional (E ++ (pairs.map (storeDerivedAt docs)).flatten) →
      Good (pairs.foldl (rebuildStoreStep docs) r) ∧
      NodupKeys (pairs.foldl (rebuildStoreStep docs) r).uuid_to_path ∧
      Track (pairs.foldl (rebuildStoreStep docs) r)
        (E ++ (pairs.map (storeDerivedAt docs)).flatten) := by
  intro pairs
  induction pairs with
  | nil =>
    intro docs r E hg ht hnd hpf
    refine ⟨hg, hnd, ?_⟩
    rw [List.map_nil, List.flatten_nil, List.append_nil]
    exact ht
  | cons p0 ps ih =>
    intro docs r E hg ht hnd hpf
    rw [List.map_cons, List.flatten_cons] at hpf ⊢
    rw [List.foldl_cons]
    cases hl : alookup p0.2 docs with
    | none =>
      rw [storeDerivedAt_none hl, List.nil_append] at hpf ⊢
      rw [rebuildStoreStep_none hl]
      exact ih docs r E hg ht hnd hpf
    | some d =>
      rw [storeDerivedAt_some hl] at hpf ⊢
      rw [rebuildStoreStep_some hl]
      cases hm : d.filemeta with
      | none =>
        rw [folderDerivedDoc_none hm, List.nil_append] at hpf ⊢
        rw [rebuild_from_folder_doc_none hm]
        exact ih docs r E hg ht hnd hpf
      | some fm =>
        rw [folderDerivedDoc_some hm] at hpf ⊢
        rw [rebuild_from_folder_doc_some hm]
        have hpf1 : PathFunctional (E ++ folderDerived p0.2 p0.1 fm) := by
          refine pathFunctional_mono (fun x hx => ?_) hpf
          rcases List.mem_append.mp hx with h1 | h1
          · exact List.mem_append_left _ h1
          · rw [← List.append_assoc]
            exact List.mem_append_left _ (List.mem_append_right _ h1)
        obtain ⟨hg1, ht1⟩ := insertEntries_good fm r E p0.2 p0.1 hg ht hpf1
        have hnd1 := insertEntries_nodup_u2p fm r p0.2 p0.1 hnd
        have hpf2 : PathFunctional ((E ++ folderDerived p0.2 p0.1 fm)
            ++ (ps.map (storeDerivedAt docs)).flatten) := by
          rw [List.append_assoc]
          exact hpf
        obtain ⟨hg2, hnd2, ht2⟩ := ih docs _ _ hg1 ht1 hnd1 hpf2
        refine ⟨hg2, hnd2, ?_⟩
        rw [← List.append_assoc]
        exact ht2

instance (l : List (Str × Str)) : Decidable (PathFunctional l) := by
  unfold PathFunctional
  infer_instance

instance {β : Type} (l : List (Str × β)) : Decidable (NodupKeys l) := by
  unfold NodupKeys
  infer_instance

def folderIdB : Str := relayA ++ '-' :: "dddddddd-dddd-dddd-dddd-dddddddddddd".data

/-- A folder whose filemeta lists the same display path twice: "/X.md" and
"X.md" both derive the display path "Lens/X.md" (the leading "/" strip is
a no-op on the second). -/
def storeC3 : DocStore :=
  [(folderIdA,
    { contents := none,
      filemeta := some [("/X.md".data, "u1".data), ("X.md".data, "u2".data)],
      backlinks := [] })]

/-- Counterexample to C3 as stated: after `rebuild` over `storeC3`, uuid u1
is registered (`path_for_uuid u1 = "Lens/X.md"`), but resolving that path
returns the DocInfo of u2 — the forward entry was overwritten by the
colliding second filemeta entry, so the two maps are not inverses. -/
theorem c3_resolver_counterexample :
    path_for_uuid (DocumentResolver.rebuild storeC3) "u1".data
        = some "Lens/X.md".data ∧
    (resolve_path (DocumentResolver.rebuild storeC3) "Lens/X.md".data).map
        (fun i => i.uuid) = some "u2".data ∧
    "u2".data ≠ "u1".data := by
  refine ⟨by decide, by decide, by decide⟩

/-- C3 (amended): the resolver's round-trip invariant — every registered
uuid resolves through `path_for_uuid` then `resolve_path` back to itself —
holds for the empty resolver, is established by `rebuild` whenever no two
filemeta entries (within or across folders) derive the same display path
for different uuids, and is preserved by `update_folder` whenever the
folder's newly derived paths do not collide with a different uuid's
registered or newly derived path; `all_paths().len()` always equals the
forward map's entry count (unconditionally). -/
theorem c3_resolver_amended :
    (∀ r : DocumentResolver, (all_paths r).length = r.path_to_doc.length) ∧
    Good DocumentResolver.empty ∧
    (∀ docs : DocStore, PathFunctional (storeDerived docs) →
      Good (DocumentResolver.rebuild docs) ∧
      NodupKeys (DocumentResolver.rebuild docs).uuid_to_path) ∧
    (∀ (r : DocumentResolver) (fid : Str) (idx : Nat) (doc : YDoc),
      Good r → NodupKeys r.uuid_to_path →
      PathFunctional ((r.uuid_to_path.map (fun e => (e.2, e.1)))
        ++ folderDerivedDoc fid idx doc) →
      Good (update_folder_from_doc r fid idx doc) ∧
      NodupKeys (update_folder_from_doc r fid idx doc).uuid_to_path) ∧
    (∀ r : DocumentResolver, Good r → ∀ u p,
      path_for_uuid r u = some p →
      ∃ i, resolve_path r p = some i ∧ i.uuid = u) := by
  have hempty : Good DocumentResolver.empty := by
    intro u p h
    simp [DocumentResolver.empty, alookup] at h
  refine ⟨?_, hempty, ?_, ?_, fun r hg u p hp => hg u p hp⟩
  · intro r
    rw [all_paths, akeys, List.length_map]
  · intro docs hpf
    have htrack : Track DocumentResolver.empty [] := by
      intro u p h
      simp [DocumentResolver.empty, alookup] at h
    have hnd : NodupKeys DocumentResolver.empty.uuid_to_path := List.nodup_nil
    have hpf' : PathFunctional ([] ++
        ((((List.range (sortStrs (find_all_folder_docs docs)).length).zip
          (sortStrs (find_all_folder_docs docs))).map
            (storeDerivedAt docs)).flatten)) := by
      rw [List.nil_append]
      exact hpf
    obtain ⟨hg, hndu, _⟩ := rebuildFold_inv _ docs DocumentResolver.empty []
      hempty htrack hnd hpf'
    exact ⟨hg, hndu⟩
  · intro r fid idx doc hg hnd hpf
    obtain ⟨hg1, ht1, hnd1⟩ := removeFold_inv (removedPathsOf r fid) r
      (r.uuid_to_path.map (fun e => (e.2, e.1))) hg (track_self r) hnd
    rw [update_folder_from_doc]
    cases hm : doc.filemeta with
    | none =>
      rw [show remove_folder_entries r fid
          = (removedPathsOf r fid).foldl removeEntryStep r from rfl] at *
      rw [rebuild_from_folder_doc_none hm]
      exact ⟨hg1, hnd1⟩
    | some fm =>
      rw [rebuild_from_folder_doc_some hm]
      rw [folderDerivedDoc_some hm] at hpf
      obtain ⟨hg2, _⟩ := insertEntries_good fm _ _ fid idx hg1 ht1 hpf
      exact ⟨hg2, insertEntries_nodup_u2p fm _ fid idx hnd1⟩

/-- Witness for C3 (amended): over the collision-free single-folder store,
the rebuilt resolver round-trips uuid u1 through both maps. -/
theorem c3_resolver_amended_witness :
    ∃ i, resolve_path (DocumentResolver.rebuild storeA) "Lens/A.md".data
        = some i ∧ i.uuid = "u1".data :=
  (c3_resolver_amended.2.2.1 storeA (by decide)).1
    "u1".data "Lens/A.md".data (by decide)

theorem folderDerived_map_snd (fid : Str) (idx : Nat)
    (fm : List (Str × Str)) :
    (folderDerived fid idx fm).map (·.2) = fm.map (·.2) := by
  rw [folderDerived, List.map_map]
  rfl

/-- Two folders sharing one uuid at different paths. -/
def storeC9 : DocStore :=
  [(folderIdA,
    { contents := none, filemeta := some [("/A.md".data, "u".data)],
      backlinks := [] }),
   (folderIdB,
    { contents := none, filemeta := some [("/B.md".data, "u".data)],
      backlinks := [] })]

/-- Counterexample to C9 as stated: after `rebuild` over `storeC9`, the
reverse-map entry u → "Lens Edu/B.md" belongs to folder B (the forward
entry for that path carries folder B's doc_id), yet
`update_folder(folderIdA, ...)` deletes it: the removal loop erases the
uuid recorded in folder A's removed forward entry even though the uuid's
current reverse binding belongs to a different folder. -/
theorem c9_update_folder_counterexample :
    path_for_uuid (DocumentResolver.rebuild storeC9) "u".data
        = some "Lens Edu/B.md".data ∧
    (resolve_path (DocumentResolver.rebuild storeC9)
        "Lens Edu/B.md".data).map (fun i => i.folder_doc_id)
        = some folderIdB ∧
    folderIdB ≠ folderIdA ∧
    path_for_uuid (update_folder_from_doc (DocumentResolver.rebuild storeC9)
        folderIdA 0
        { contents := none, filemeta := some [], backlinks := [] })
        "u".data = none := by
  refine ⟨by decide, by decide, by decide, by decide⟩

/-- C9 (amended): `update_folder(f, idx, doc)` removes exactly the
forward-map entries whose DocInfo carries folder f and re-derives f's
entries; a forward-map entry neither removed nor re-derived is unchanged,
every removed path not re-derived resolves to nothing afterwards, and a
reverse-map entry is unchanged provided its uuid is neither recorded in
one of f's removed forward entries — even when its current binding belongs
to another folder — nor re-derived; re-derived entries are present
afterwards. -/
theorem c9_update_folder_amended :
    (∀ (r : DocumentResolver) (fid : Str) (idx : Nat) (doc : YDoc) (p : Str),
      p ∉ removedPathsOf r fid →
      p ∉ (folderDerivedDoc fid idx doc).map (·.1) →
      resolve_path (update_folder_from_doc r fid idx doc) p
        = resolve_path r p) ∧
    (∀ (r : DocumentResolver) (fid : Str) (idx : Nat) (doc : YDoc) (p : Str),
      NodupKeys r.path_to_doc →
      p ∈ removedPathsOf r fid →
      p ∉ (folderDerivedDoc fid idx doc).map (·.1) →
      resolve_path (update_folder_from_doc r fid idx doc) p = none) ∧
    (∀ (r : DocumentResolver) (fid : Str) (idx : Nat) (doc : YDoc) (u : Str),
      NodupKeys r.path_to_doc →
      u ∉ removedUuidsOf r fid →
      u ∉ (folderDerivedDoc fid idx doc).map (·.2) →
      path_for_uuid (update_folder_from_doc r fid idx doc) u
        = path_for_uuid r u) ∧
    (∀ (r : DocumentResolver) (fid : Str) (idx : Nat) (doc : YDoc)
        (fm : List (Str × Str)), doc.filemeta = some fm →
      ((folderDerived fid idx fm).map (·.1)).Nodup →
      ∀ e ∈ fm,
        resolve_path (update_folder_from_doc r fid idx doc)
            (derivedEntry fid idx e.1 e.2).1
          = some (derivedEntry fid idx e.1 e.2).2) := by
  refine ⟨?_, ?_, ?_, ?_⟩
  · intro r fid idx doc p hp1 hp2
    rw [resolve_path, update_folder_from_doc]
    cases hm : doc.filemeta with
    | none =>
      rw [rebuild_from_folder_doc_none hm, remove_folder_entries,
        removeFold_p2d_frame _ _ p hp1]
      rfl
    | some fm =>
      rw [folderDerivedDoc_some hm] at hp2
      rw [rebuild_from_folder_doc_some hm,
        insertEntries_p2d_frame fm _ fid idx p hp2, remove_folder_entries,
        removeFold_p2d_frame _ _ p hp1]
      rfl
  · intro r fid idx doc p hnd hp1 hp2
    rw [resolve_path, update_folder_from_doc]
    cases hm : doc.filemeta with
    | none =>
      rw [rebuild_from_folder_doc_none hm, remove_folder_entries,
        removeFold_p2d_removed _ _ p (removedPathsOf_nodup fid hnd) hnd hp1]
    | some fm =>
      rw [folderDerivedDoc_some hm] at hp2
      rw [rebuild_from_folder_doc_some hm,
        insertEntries_p2d_frame fm _ fid idx p hp2, remove_folder_entries,
        removeFold_p2d_removed _ _ p (removedPathsOf_nodup fid hnd) hnd hp1]
  · intro r fid idx doc u hnd hu1 hu2
    have hcond : ∀ p' ∈ removedPathsOf r fid, ∀ info,
        alookup p' r.path_to_doc = some info → info.uuid ≠ u := by
      intro p' hp' info hinfo
      rw [removedPathsOf, List.mem_map] at hp'
      obtain ⟨en, hfil, hfst⟩ := hp'
      have hmem : en ∈ r.path_to_doc := List.mem_of_mem_filter hfil
      have hlook : alookup en.1 r.path_to_doc = some en.2 :=
        alookup_eq_some_of_mem hnd (by
          obtain ⟨a, b⟩ := en
          exact hmem)
      rw [hfst] at hlook
      rw [hinfo, Option.some.injEq] at hlook
      intro hequ
      apply hu1
      rw [removedUuidsOf, List.mem_map]
      refine ⟨en, hfil, ?_⟩
      show en.2.uuid = u
      rw [← hlook]
      exact hequ
    rw [path_for_uuid, update_folder_from_doc]
    cases hm : doc.filemeta with
    | none =>
      rw [rebuild_from_folder_doc_none hm, remove_folder_entries,
        removeFold_u2p_frame _ _ u (removedPathsOf_nodup fid hnd) hcond]
      rfl
    | some fm =>
      rw [folderDerivedDoc_some hm, folderDerived_map_snd] at hu2
      rw [rebuild_from_folder_doc_some hm,
        insertEntries_u2p_frame fm _ fid idx u hu2, remove_folder_entries,
        removeFold_u2p_frame _ _ u (removedPathsOf_nodup fid hnd) hcond]
      rfl
  · intro r fid idx doc fm hm hnd e he
    rw [resolve_path, update_folder_from_doc, rebuild_from_folder_doc_some hm]
    exact insertEntries_p2d_lookup fm _ fid idx hnd e he

/-- Witness for C9 (amended): updating folder A to an empty filemeta
removes exactly its own forward entry ("Lens/A.md" resolves to nothing
afterwards). -/
theorem c9_update_folder_amended_witness :
    resolve_path (update_folder_from_doc (DocumentResolver.rebuild storeC9)
        folderIdA 0
        { contents := none, filemeta := some [], backlinks := [] })
        "Lens/A.md".data = none :=
  c9_update_folder_amended.2.1 (DocumentResolver.rebuild storeC9)
    folderIdA 0 _ "Lens/A.md".data (by decide) (by decide) (by decide)
